import Mathlib

/-!
Verification of the antigravity-openai-proxy translation core against its
specification.

The TypeScript source is shallowly embedded: JSON values become the `Json`
inductive, JavaScript objects become ordered association lists (insertion
order preserved, as in JS), strings are modelled at the character-sequence
level, machine integers as `Int` with explicit two's-complement wrapping
where the source relies on 32-bit coercion, and fallible or asynchronous
code becomes explicit state passing.  External platform primitives
(`JSON.parse`, `crypto.randomUUID`) are taken as parameters of the
embedded functions, so every theorem quantifies over their behaviour.
-/

/-! ## JSON values

A JSON tree as produced by `JSON.parse`: the data model all translator and
sanitizer functions of the source operate on.  JavaScript objects preserve
insertion order and have no duplicate keys; we model them as association
lists and mirror the JS object operations (member read, member write,
`delete`, spread) on that representation.  Numbers are modelled as `Int`
(no claim under verification depends on non-integral numerics).
`undefined` is represented by `Option.none` at use sites.
-/

inductive Json where
  | null : Json
  | bool (b : Bool) : Json
  | num (n : Int) : Json
  | str (s : String) : Json
  | arr (elems : List Json) : Json
  | obj (fields : List (String × Json)) : Json
  deriving Repr

namespace Json

mutual

/-- Boolean structural equality for `Json` (the derived instance is not
available for nested inductives in this Lean version). -/
def beq : Json → Json → Bool
  | .null, .null => true
  | .bool a, .bool b => a == b
  | .num a, .num b => a == b
  | .str a, .str b => a == b
  | .arr a, .arr b => beqList a b
  | .obj a, .obj b => beqFields a b
  | _, _ => false

/-- Pointwise `beq` on element lists. -/
def beqList : List Json → List Json → Bool
  | [], [] => true
  | p :: ps, q :: qs => beq p q && beqList ps qs
  | _, _ => false

/-- Pointwise `beq` on field lists. -/
def beqFields : List (String × Json) → List (String × Json) → Bool
  | [], [] => true
  | (k, v) :: ps, (k', v') :: qs => k == k' && beq v v' && beqFields ps qs
  | _, _ => false

end

end Json

/-- Second components of pairs are smaller than the pair, for termination
arguments on field lists. -/
theorem sizeOf_snd_lt_pair {α β : Type} [SizeOf α] [SizeOf β] (kv : α × β) :
    sizeOf kv.2 < sizeOf kv := by
  cases kv; simp

namespace Json

/-- Structural induction for `Json` with membership hypotheses for the two
nested list constructors. -/
theorem ind (P : Json → Prop)
    (hnull : P .null)
    (hbool : ∀ b, P (.bool b))
    (hnum : ∀ n, P (.num n))
    (hstr : ∀ s, P (.str s))
    (harr : ∀ xs, (∀ x ∈ xs, P x) → P (.arr xs))
    (hobj : ∀ fs, (∀ kv ∈ fs, P kv.2) → P (.obj fs)) :
    ∀ j, P j
  | .null => hnull
  | .bool b => hbool b
  | .num n => hnum n
  | .str s => hstr s
  | .arr xs => harr xs (fun x hx =>
      have : sizeOf x < 1 + sizeOf xs := by
        have := List.sizeOf_lt_of_mem hx
        omega
      ind P hnull hbool hnum hstr harr hobj x)
  | .obj fs => hobj fs (fun kv hkv =>
      have : sizeOf kv.2 < 1 + sizeOf fs := by
        have h1 := List.sizeOf_lt_of_mem hkv
        have h2 := sizeOf_snd_lt_pair kv
        omega
      ind P hnull hbool hnum hstr harr hobj kv.2)
termination_by j => sizeOf j

mutual

theorem beq_refl : ∀ j, beq j j = true
  | .null => rfl
  | .bool b => by simp [beq]
  | .num n => by simp [beq]
  | .str s => by simp [beq]
  | .arr xs => by simp only [beq]; exact beqList_refl xs
  | .obj fs => by simp only [beq]; exact beqFields_refl fs

theorem beqList_refl : ∀ xs, beqList xs xs = true
  | [] => rfl
  | x :: xs => by simp only [beqList, Bool.and_eq_true]; exact ⟨beq_refl x, beqList_refl xs⟩

theorem beqFields_refl : ∀ fs, beqFields fs fs = true
  | [] => rfl
  | (k, v) :: fs => by
      simp only [beqFields, Bool.and_eq_true, beq_self_eq_true]
      exact ⟨⟨trivial, beq_refl v⟩, beqFields_refl fs⟩

end

mutual

theorem eq_of_beq : ∀ {a b : Json}, beq a b = true → a = b
  | .null, .null, _ => rfl
  | .bool _, .bool _, h => by simp [beq] at h; simp [h]
  | .num _, .num _, h => by simp [beq] at h; simp [h]
  | .str _, .str _, h => by simp [beq] at h; simp [h]
  | .arr xs, .arr ys, h => by
      simp only [beq] at h
      have := eqList_of_beq h
      simp [this]
  | .obj xs, .obj ys, h => by
      simp only [beq] at h
      have := eqFields_of_beq h
      simp [this]
  | .null, .bool _, h | .null, .num _, h | .null, .str _, h
  | .null, .arr _, h | .null, .obj _, h => by simp [beq] at h
  | .bool _, .null, h | .bool _, .num _, h | .bool _, .str _, h
  | .bool _, .arr _, h | .bool _, .obj _, h => by simp [beq] at h
  | .num _, .null, h | .num _, .bool _, h | .num _, .str _, h
  | .num _, .arr _, h | .num _, .obj _, h => by simp [beq] at h
  | .str _, .null, h | .str _, .bool _, h | .str _, .num _, h
  | .str _, .arr _, h | .str _, .obj _, h => by simp [beq] at h
  | .arr _, .null, h | .arr _, .bool _, h | .arr _, .num _, h
  | .arr _, .str _, h | .arr _, .obj _, h => by simp [beq] at h
  | .obj _, .null, h | .obj _, .bool _, h | .obj _, .num _, h
  | .obj _, .str _, h | .obj _, .arr _, h => by simp [beq] at h

theorem eqList_of_beq : ∀ {a b : List Json}, beqList a b = true → a = b
  | [], [], _ => rfl
  | x :: xs, y :: ys, h => by
      simp only [beqList, Bool.and_eq_true] at h
      have h1 := eq_of_beq h.1
      have h2 := eqList_of_beq h.2
      simp [h1, h2]
  | [], _ :: _, h => by simp [beqList] at h
  | _ :: _, [], h => by simp [beqList] at h

theorem eqFields_of_beq : ∀ {a b : List (String × Json)}, beqFields a b = true → a = b
  | [], [], _ => rfl
  | (k, v) :: xs, (k', v') :: ys, h => by
      simp only [beqFields, Bool.and_eq_true, beq_iff_eq] at h
      have h1 := eq_of_beq h.1.2
      have h2 := eqFields_of_beq h.2
      simp [h.1.1, h1, h2]
  | [], _ :: _, h => by simp [beqFields] at h
  | _ :: _, [], h => by simp [beqFields] at h

end

instance : DecidableEq Json := fun a b =>
  if h : beq a b = true then .isTrue (eq_of_beq h)
  else .isFalse (fun he => h (he ▸ beq_refl a))

/-- JavaScript truthiness of a value: `null`, `false`, `0` and the empty
string are falsy; every object and array is truthy. -/
def truthy : Json → Bool
  | .null => false
  | .bool b => b
  | .num n => n != 0
  | .str s => s != ""
  | .arr _ => true
  | .obj _ => true

/-- Member read `o[k]`: first binding of `k` in an object, `none`
(JS `undefined`) otherwise or on non-objects. -/
def jget : Json → String → Option Json
  | .obj fs, k => fs.lookup k
  | _, _ => none

/-- JavaScript truthiness of a possibly-absent value (`undefined` is
falsy). -/
def otruthy : Option Json → Bool
  | none => false
  | some j => truthy j

/-- Member write `o[k] = v` on a field list: replaces the binding in place
when the key is present (JS objects keep the original key position),
appends otherwise. -/
def setKey : List (String × Json) → String → Json → List (String × Json)
  | [], k, v => [(k, v)]
  | kv :: t, k, v => if kv.1 == k then (k, v) :: t else kv :: setKey t k v

/-- Member deletion `delete o[k]` on a field list. -/
def delKey (fs : List (String × Json)) (k : String) : List (String × Json) :=
  fs.filter (fun kv => kv.1 != k)

/-- Object spread `\x7b...base, ...extra\x7d`: each binding of `extra` is
written over `base` in order, with JS member-write position semantics. -/
def spreadFields (base extra : List (String × Json)) : List (String × Json) :=
  extra.foldl (fun acc kv => setKey acc kv.1 kv.2) base

end Json

/-! ## JavaScript string helpers

The source manipulates strings with `toLowerCase`, `startsWith`,
`endsWith`, `padStart`, `padEnd`, `slice` and template concatenation.  We
model strings at the character-list level (`String.data`), which matches
JS semantics for the ASCII data the proxy handles.
-/

/-- JS `String.prototype.toLowerCase` (ASCII range, which covers every
model identifier and token the proxy processes). -/
def lowerStr (s : String) : String := ⟨s.data.map Char.toLower⟩

/-- JS `String.prototype.startsWith`. -/
def strStartsWith (s pre : String) : Bool := pre.data.isPrefixOf s.data

/-- JS `String.prototype.endsWith`. -/
def strEndsWith (s suf : String) : Bool := suf.data.isSuffixOf s.data

/-- JS `String.prototype.includes`. -/
def strIncludes (s sub : String) : Bool := decide (sub.data <:+: s.data)

/-- JS `String.prototype.slice(0, n)` / take of the first `n` characters. -/
def strTake (s : String) (n : Nat) : String := ⟨s.data.take n⟩

/-- JS `padStart(n, c)`. -/
def strPadStart (s : String) (n : Nat) (c : Char) : String :=
  ⟨List.replicate (n - s.data.length) c ++ s.data⟩

/-- JS `padEnd(n, c)`. -/
def strPadEnd (s : String) (n : Nat) (c : Char) : String :=
  ⟨s.data ++ List.replicate (n - s.data.length) c⟩

/-! ## Reasoning mapper (src/routes/models.ts)

`reasoning_effort` is the request enum `low | medium | high | minimal`;
absence is modelled with `Option`.
-/

inductive ReasoningEffort where
  | low | medium | high | minimal
  deriving Repr, DecidableEq

/-- Embeds `mapReasoningEffortToGemini3Pro` (src/routes/models.ts):
`high` maps to `"high"`, everything else (including absence) to `"low"`. -/
def mapReasoningEffortToGemini3Pro : Option ReasoningEffort → String
  | some .low => "low"
  | some .medium => "low"
  | some .high => "high"
  | some .minimal => "low"
  | none => "low"

/-- Embeds `mapReasoningEffortToGemini3Flash` (src/routes/models.ts). -/
def mapReasoningEffortToGemini3Flash : Option ReasoningEffort → String
  | some .minimal => "minimal"
  | some .low => "low"
  | some .medium => "medium"
  | some .high => "high"
  | none => "medium"

/-- Embeds the regex test for a trailing `-low`, `-high`, `-medium` or
`-minimal` used by `normalizeModelForAntigravity` on the lowercased
model. -/
def endsWithTierSuffix (lower : String) : Bool :=
  strEndsWith lower "-low" || strEndsWith lower "-high" ||
  strEndsWith lower "-medium" || strEndsWith lower "-minimal"

/-- Embeds `normalizeModelForAntigravity` (src/routes/models.ts line 71):
appends the Gemini-3-Pro tier suffix when the lowercase model starts with
`gemini-3-pro` and does not already end in a tier suffix. -/
def normalizeModelForAntigravity (model : String) (e : Option ReasoningEffort) : String :=
  let lower := lowerStr model
  if strStartsWith lower "gemini-3-pro" && !endsWithTierSuffix lower then
    model ++ "-" ++ mapReasoningEffortToGemini3Pro e
  else
    model

/-! ## Model-family tags (src/antigravity/types.ts) -/

/-- Embeds `isClaudeModel`: the lowercase model contains `claude` or
`opus`. -/
def isClaudeModel (model : String) : Bool :=
  strIncludes (lowerStr model) "claude" || strIncludes (lowerStr model) "opus"

/-- Embeds `isThinkingCapableModel`: the lowercase model contains
`thinking`, `gemini-3` or `opus`. -/
def isThinkingCapableModel (model : String) : Bool :=
  strIncludes (lowerStr model) "thinking" ||
  strIncludes (lowerStr model) "gemini-3" ||
  strIncludes (lowerStr model) "opus"

/-- Embeds `mapReasoningEffortToTokenBudget` (src/routes/models.ts), with
the `REASONING_EFFORT_BUDGETS` table and `DEFAULT_THINKING_BUDGET` from
src/antigravity/types.ts inlined. -/
def mapReasoningEffortToTokenBudget : Option ReasoningEffort → Int
  | some .low => 8192
  | some .medium => 16384
  | some .high => 32768
  | some .minimal => 8192
  | none => 16000

/-! ## Generation-config assembly (src/routes/models.ts `chatCompletions`)

The `generationConfig.thinkingConfig` object takes one of three key
shapes in the source, reflected as three constructors; the remaining
`generationConfig` members (`temperature`, `topP`, `stopSequences`) are
orthogonal to the claims about this function and are not carried. -/

inductive ThinkingConfig where
  | levelCfg (thinkingLevel : String) (includeThoughts : Bool)
  | budgetSnake (include_thoughts : Bool) (thinking_budget : Int)
  | budgetCamel (thinkingBudget : Int) (includeThoughts : Bool)
  deriving Repr, DecidableEq

structure GenerationConfig where
  maxOutputTokens : Option Int
  thinkingConfig : Option ThinkingConfig
  deriving Repr, DecidableEq

/-- Embeds the `generationConfig` assembly of `chatCompletions`
(src/routes/models.ts lines 122-166): `maxOutputTokens` is set only for a
truthy `max_tokens`; the thinking branch dispatches on Gemini-3 vs Claude
vs other, and the Claude branch forces `maxOutputTokens` to 64000 when it
is unset or not above the thinking budget.  The `throw` for unsupported
Gemini-3 models becomes `Except.error`. -/
def buildGenerationConfig (model : String) (max_tokens : Option Int)
    (effort : Option ReasoningEffort) : Except String GenerationConfig :=
  let mot0 : Option Int := match max_tokens with
    | some n => if n != 0 then some n else none
    | none => none
  let claude := isClaudeModel model
  let thinking := isThinkingCapableModel model
  if thinking then
    let lowerModel := lowerStr model
    if strIncludes lowerModel "gemini-3" then
      if strIncludes lowerModel "gemini-3-pro" then
        .ok ⟨mot0, some (.levelCfg (mapReasoningEffortToGemini3Pro effort) true)⟩
      else if strIncludes lowerModel "gemini-3-flash" then
        .ok ⟨mot0, some (.levelCfg (mapReasoningEffortToGemini3Flash effort) true)⟩
      else
        .error ("Unsupported Gemini 3 model: " ++ model)
    else if claude then
      let thinkingBudget := mapReasoningEffortToTokenBudget effort
      let mot := match mot0 with
        | none => some (64000 : Int)
        | some n => if n ≤ thinkingBudget then some 64000 else some n
      .ok ⟨mot, some (.budgetSnake true thinkingBudget)⟩
    else
      .ok ⟨mot0, some (.budgetCamel (mapReasoningEffortToTokenBudget effort) true)⟩
  else
    .ok ⟨mot0, none⟩

/-! ## Fingerprint headers (src/antigravity/fingerprint.ts) -/

/-- JS `ToInt32` coercion (the `hash & hash` step of `hashString`). -/
def toInt32 (x : Int) : Int := (x + 2 ^ 31) % 2 ^ 32 - 2 ^ 31

/-- One step of `hashString`: `hash = ((hash << 5) - hash) + charCode`
followed by the 32-bit coercion.  The shift itself coerces to 32 bits
before the subtraction, which is exact in doubles. -/
def hashStep (h : Int) (c : Nat) : Int := toInt32 (toInt32 (32 * h) - h + c)

/-- Hex digits of `n`, most significant first, into `acc`; `fuel` bounds
the recursion (16 digits suffice for every 32-bit value).  Mirrors JS
`Number.prototype.toString(16)` for naturals. -/
def hexDigitsAux : Nat → Nat → List Char → List Char
  | 0, _, acc => acc
  | _ + 1, 0, acc => acc
  | fuel + 1, n, acc => hexDigitsAux fuel (n / 16) (Nat.digitChar (n % 16) :: acc)

/-- JS `n.toString(16)` for a natural number. -/
def natToHexStr (n : Nat) : String :=
  if n = 0 then "0" else ⟨hexDigitsAux 16 n []⟩

/-- Embeds `hashString` (src/antigravity/fingerprint.ts line 40): the
32-bit accumulating string hash, absolute value, lowercase hex, left
padded to 8 characters.  Character codes are the chars' code points
(identical to JS `charCodeAt` on the BMP). -/
def hashString (input : String) : String :=
  let h := input.data.foldl (fun h c => hashStep h c.toNat) 0
  strPadStart (natToHexStr h.natAbs) 8 '0'

structure FingerprintHeaders where
  quotaUser : String
  deviceId : String
  deriving Repr, DecidableEq

/-- The value computed by `getFingerprintHeaders` on a cache miss:
`X-Goog-QuotaUser` is `device-<hash>` and `X-Client-Device-Id` is the
hash right-padded to 32 characters. -/
def fingerprintOf (refreshToken : String) : FingerprintHeaders :=
  let hash := hashString refreshToken
  ⟨"device-" ++ hash, strPadEnd hash 32 '0'⟩

/-- Embeds `getFingerprintHeaders` (src/antigravity/fingerprint.ts line
8) together with its module-level memoization cache, modelled as an
explicit association list threaded through the call. -/
def getFingerprintHeaders (cache : List (String × FingerprintHeaders))
    (refreshToken : String) : FingerprintHeaders × List (String × FingerprintHeaders) :=
  match cache.lookup refreshToken with
  | some cached => (cached, cache)
  | none =>
      let headers := fingerprintOf refreshToken
      (headers, cache ++ [(refreshToken, headers)])

/-! ## SHA-256 (reference model for what the specification asserts about
the fingerprint hash)

The specification claims the fingerprint derives from the 8-byte SHA-256
prefix of the refresh token.  The source computes no SHA-256; this
reference implementation of FIPS 180-4 exists solely to evaluate that
spec-side characterization at concrete inputs. -/

def sha256K : List Nat := [
  1116352408, 1899447441, 3049323471, 3921009573, 961987163, 1508970993,
  2453635748, 2870763221, 3624381080, 310598401, 607225278, 1426881987,
  1925078388, 2162078206, 2614888103, 3248222580, 3835390401, 4022224774,
  264347078, 604807628, 770255983, 1249150122, 1555081692, 1996064986,
  2554220882, 2821834349, 2952996808, 3210313671, 3336571891, 3584528711,
  113926993, 338241895, 666307205, 773529912, 1294757372, 1396182291,
  1695183700, 1986661051, 2177026350, 2456956037, 2730485921, 2820302411,
  3259730800, 3345764771, 3516065817, 3600352804, 4094571909, 275423344,
  430227734, 506948616, 659060556, 883997877, 958139571, 1322822218,
  1537002063, 1747873779, 1955562222, 2024104815, 2227730452, 2361852424,
  2428436474, 2756734187, 3204031479, 3329325298]

def sha256H0 : List Nat := [
  1779033703, 3144134277, 1013904242, 2773480762,
  1359893119, 2600822924, 528734635, 1541459225]

def rotr32 (x n : Nat) : Nat := ((x >>> n) ||| (x <<< (32 - n))) % 2 ^ 32

def sha256Ch (x y z : Nat) : Nat := (x &&& y) ^^^ ((2 ^ 32 - 1 - x) &&& z)

def sha256Maj (x y z : Nat) : Nat := (x &&& y) ^^^ (x &&& z) ^^^ (y &&& z)

def sha256BSig0 (x : Nat) : Nat := rotr32 x 2 ^^^ rotr32 x 13 ^^^ rotr32 x 22

def sha256BSig1 (x : Nat) : Nat := rotr32 x 6 ^^^ rotr32 x 11 ^^^ rotr32 x 25

def sha256SSig0 (x : Nat) : Nat := rotr32 x 7 ^^^ rotr32 x 18 ^^^ (x >>> 3)

def sha256SSig1 (x : Nat) : Nat := rotr32 x 17 ^^^ rotr32 x 19 ^^^ (x >>> 10)

/-- Extends a 16-word block to the 64-word message schedule. -/
def sha256Schedule (block : List Nat) : List Nat :=
  (List.range 48).foldl
    (fun w _ =>
      let i := w.length
      w ++ [(sha256SSig1 (w.getD (i - 2) 0) + w.getD (i - 7) 0 +
        sha256SSig0 (w.getD (i - 15) 0) + w.getD (i - 16) 0) % 2 ^ 32])
    block

/-- One SHA-256 compression of a 16-word block into the running state. -/
def sha256Compress (h : List Nat) (block : List Nat) : List Nat :=
  let w := sha256Schedule block
  let st := (List.range 64).foldl
    (fun st i =>
      let (a, b, c, d, e, f, g, hh) := st
      let t1 := (hh + sha256BSig1 e + sha256Ch e f g +
        sha256K.getD i 0 + w.getD i 0) % 2 ^ 32
      let t2 := (sha256BSig0 a + sha256Maj a b c) % 2 ^ 32
      ((t1 + t2) % 2 ^ 32, a, b, c, (d + t1) % 2 ^ 32, e, f, g))
    (h.getD 0 0, h.getD 1 0, h.getD 2 0, h.getD 3 0,
     h.getD 4 0, h.getD 5 0, h.getD 6 0, h.getD 7 0)
  let (a, b, c, d, e, f, g, hh) := st
  List.zipWith (fun x y => (x + y) % 2 ^ 32) h [a, b, c, d, e, f, g, hh]

/-- FIPS 180-4 padding of a byte message. -/
def sha256Pad (msg : List Nat) : List Nat :=
  let L := msg.length
  let zeros := (119 - L % 64) % 64
  let bitLen := 8 * L
  msg ++ [0x80] ++ List.replicate zeros 0 ++
    [56, 48, 40, 32, 24, 16, 8, 0].map (fun s => (bitLen >>> s) &&& 255)

/-- Big-endian packing of bytes into 32-bit words. -/
def bytesToWords : List Nat → List Nat
  | b0 :: b1 :: b2 :: b3 :: rest =>
      ((b0 <<< 24) ||| (b1 <<< 16) ||| (b2 <<< 8) ||| b3) :: bytesToWords rest
  | _ => []

/-- Runs the compression function over consecutive 16-word blocks. -/
def sha256Run (words : List Nat) : List Nat :=
  (words.foldl
    (fun (acc : List Nat × List Nat) wd =>
      let blk := acc.2 ++ [wd]
      if blk.length = 16 then (sha256Compress acc.1 blk, []) else (acc.1, blk))
    (sha256H0, [])).1

/-- Big-endian unpacking of 32-bit words into bytes. -/
def wordsToBytes (words : List Nat) : List Nat :=
  words.flatMap (fun w => [(w >>> 24) &&& 255, (w >>> 16) &&& 255, (w >>> 8) &&& 255, w &&& 255])

/-- Lowercase hex encoding of a byte list. -/
def hexEncodeBytes (bytes : List Nat) : String :=
  ⟨bytes.flatMap (fun b => [Nat.digitChar (b / 16), Nat.digitChar (b % 16)])⟩

/-- SHA-256 digest of a string (code points as bytes; the tokens under
discussion are ASCII), hex-encoded. -/
def sha256HexOfString (s : String) : String :=
  hexEncodeBytes (wordsToBytes (sha256Run (bytesToWords (sha256Pad (s.data.map Char.toNat)))))

/-- The device id the specification describes: hex of the 8-byte SHA-256
prefix of the token (16 hex characters), right-padded to 32. -/
def sha256DeviceIdClaim (tok : String) : String :=
  strPadEnd (strTake (sha256HexOfString tok) 16) 32 '0'

/-! ## Message translator (src/antigravity/transformer.ts `toGeminiFormat`)

OpenAI messages carry optional string fields whose absence and emptiness
are both falsy in the source (`a || b`); `strTruthy` collapses the two.
`crypto.randomUUID` is a parameter `uuids`, consumed left to right: the
translator draws `uuids k` for the k-th synthesized id. -/

/-- Truthiness of an optional string: `none` and the empty string are
falsy, as for the `a || b` defaulting idiom in the source. -/
def strTruthy : Option String → Option String
  | some s => if s = "" then none else some s
  | none => none

/-- Generic JS `Map.set`: replace the existing binding in place (keys are
unique in a JS map) or append a new one. -/
def assocSet {β : Type} : List (String × β) → String → β → List (String × β)
  | [], k, v => [(k, v)]
  | kv :: t, k, v => if kv.1 == k then (k, v) :: t else kv :: assocSet t k v

inductive OAIRole where
  | system | user | assistant | tool
  deriving Repr, DecidableEq

inductive OAIContentItem where
  | text (t : Option String)
  | imageUrl (url : Option String)
  | other
  deriving Repr, DecidableEq

/-- Message content: a string, a part list, or null. -/
inductive OAIContent where
  | str (s : String)
  | items (l : List OAIContentItem)
  | nullContent
  deriving Repr, DecidableEq

structure OAIToolCall where
  id : Option String
  fnName : Option String
  fnArgs : Option String
  deriving Repr, DecidableEq

structure OAIMsg where
  role : OAIRole
  content : OAIContent
  name : Option String
  tool_calls : Option (List OAIToolCall)
  tool_call_id : Option String
  deriving Repr, DecidableEq

/-- Gemini content parts as built by the translator
(src/antigravity/types.ts `GeminiContentPart`); the function-response
`result` carries the tool message's content verbatim. -/
inductive GPart where
  | textPart (s : String)
  | inlineData (mimeType data : String)
  | functionCall (id : String) (name : String) (args : Json) (thoughtSignature : String)
  | functionResponse (id : String) (name : String) (result : OAIContent)
  deriving Repr, DecidableEq

structure GContent where
  role : String
  parts : List GPart
  deriving Repr, DecidableEq

def SKIP_THOUGHT_SIGNATURE : String := "skip_thought_signature_validator"

/-- Synthesized call id: `call_` followed by the first 24 characters of
the dash-stripped UUID. -/
def mkCallId (uuid : String) : String :=
  "call_" ++ ⟨(uuid.data.filter (fun c => c ≠ '-')).take 24⟩

/-- Embeds the data-URI test `data:(image\x2fsubtype);base64,(payload)`
of the translator: subtype is one or more non-semicolon characters after
`image/`, and the payload is nonempty and newline-free (the regex dot
does not match newlines). -/
def parseDataImageUrl (url : String) : Option (String × String) :=
  let cs := url.data
  if cs.take 11 = "data:image/".data then
    let rest := cs.drop 5
    let mime := rest.takeWhile (fun c => c ≠ ';')
    let after := rest.dropWhile (fun c => c ≠ ';')
    let payload := after.drop 8
    if 7 ≤ mime.length ∧ after.take 8 = ";base64,".data ∧ payload ≠ [] ∧
        payload.all (fun c => c ≠ '\n') then
      some (⟨mime⟩, ⟨payload⟩)
    else
      none
  else
    none

/-- Translator fold state: accumulated system instruction, contents, the
per-function-name FIFO queues of pending call ids, and the number of
UUIDs drawn so far. -/
structure TransState where
  systemInstruction : Option String
  contents : List GContent
  pendingCallIdsByName : List (String × List String)
  uuidCount : Nat
  deriving Repr, DecidableEq

def initTransState : TransState := ⟨none, [], [], 0⟩

/-- Processes the tool-call list of an assistant message: assigns each
call its id (client id if truthy, else a fresh synthesized one), queues
the id under the call's function name, and emits the function-call part
with the sentinel thought signature. -/
def processToolCalls (jsonParse : String → Option Json) (uuids : Nat → String) :
    List OAIToolCall → List (String × List String) → Nat →
    List GPart × List (String × List String) × Nat
  | [], qs, cnt => ([], qs, cnt)
  | call :: rest, qs, cnt =>
      let idCnt := match strTruthy call.id with
        | some i => (i, cnt)
        | none => (mkCallId (uuids cnt), cnt + 1)
      let callId := idCnt.1
      let callName := (strTruthy call.fnName).getD "unknown"
      let callArgs := (strTruthy call.fnArgs).getD "{}"
      let queue := (qs.lookup callName).getD []
      let qs1 := assocSet qs callName (queue ++ [callId])
      let args := match jsonParse callArgs with
        | some j => j
        | none => Json.obj []
      let r := processToolCalls jsonParse uuids rest qs1 idCnt.2
      (.functionCall callId callName args SKIP_THOUGHT_SIGNATURE :: r.1, r.2.1, r.2.2)

/-- Parts contributed by the items of a list-typed message content:
truthy text items and data-URI images, in order. -/
def itemParts : List OAIContentItem → List GPart
  | [] => []
  | item :: rest =>
      (match item with
        | .text t =>
            match strTruthy t with
            | some s => [.textPart s]
            | none => []
        | .imageUrl u =>
            match strTruthy u with
            | some url =>
                match parseDataImageUrl url with
                | some (mime, payload) => [.inlineData mime payload]
                | none => []
            | none => []
        | .other => []) ++ itemParts rest

/-- Parts of a plain user/assistant message: a string content becomes one
text part (even when empty); a part list is walked, keeping truthy text
items and data-URI images. -/
def plainParts (content : OAIContent) : List GPart :=
  match content with
  | .str s => [.textPart s]
  | .items l => itemParts l
  | .nullContent => []

/-- One step of the translator fold (one OpenAI message), mirroring the
four branches of `toGeminiFormat` in order: system capture, assistant
with tool calls, tool response, plain user/assistant. -/
def toGeminiStep (jsonParse : String → Option Json) (uuids : Nat → String)
    (st : TransState) (msg : OAIMsg) : TransState :=
  if msg.role = .system then
    { st with systemInstruction := some (match msg.content with
        | .str s => s
        | _ => "") }
  else if msg.role = .assistant ∧ (msg.tool_calls.getD []) ≠ [] then
    let textParts : List GPart := match msg.content with
      | .str s => if s ≠ "" then [.textPart s] else []
      | _ => []
    let (callParts, qs, cnt) := processToolCalls jsonParse uuids
      (msg.tool_calls.getD []) st.pendingCallIdsByName st.uuidCount
    { st with
        contents := st.contents ++ [⟨"model", textParts ++ callParts⟩],
        pendingCallIdsByName := qs,
        uuidCount := cnt }
  else if msg.role = .tool then
    let toolName := (strTruthy msg.name).getD "unknown"
    let (matchedId, qs) : Option String × List (String × List String) :=
      match strTruthy msg.tool_call_id with
      | some i => (some i, st.pendingCallIdsByName)
      | none =>
          match st.pendingCallIdsByName.lookup toolName with
          | some (h :: t) => (some h, assocSet st.pendingCallIdsByName toolName t)
          | _ => (none, st.pendingCallIdsByName)
    { st with
        contents := st.contents ++
          [⟨"user", [.functionResponse (matchedId.getD "unknown") toolName msg.content]⟩],
        pendingCallIdsByName := qs }
  else
    let role := if msg.role = .assistant then "model" else "user"
    let parts := plainParts msg.content
    if parts ≠ [] then
      { st with contents := st.contents ++ [⟨role, parts⟩] }
    else
      st

/-- Embeds `toGeminiFormat` (src/antigravity/transformer.ts line 247):
the full left fold over the message list. -/
def toGeminiFormat (jsonParse : String → Option Json) (uuids : Nat → String)
    (messages : List OAIMsg) : Option String × List GContent :=
  let st := messages.foldl (toGeminiStep jsonParse uuids) initTransState
  (st.systemInstruction, st.contents)

/-- Hex digit test for call-id shapes. -/
def isHexDigit (c : Char) : Bool := c.isDigit || ('a' ≤ c && c ≤ 'f')

/-- Shape of a synthesized call id: `call_` plus 24 hex characters. -/
def isCallIdShape (s : String) : Bool :=
  s.data.length = 29 && s.data.take 5 = "call_".data &&
    (s.data.drop 5).all isHexDigit

/-- Well-formedness of a UUID string as produced by `crypto.randomUUID`:
32 hex characters once dashes are removed. -/
def goodUuidStr (u : String) : Bool :=
  (u.data.filter (fun c => c ≠ '-')).length = 32 &&
    (u.data.filter (fun c => c ≠ '-')).all isHexDigit

/-- Id an assistant tool-call supplied in the client request (truthy
`id` field of some tool call of some message). -/
def ClientId (msgs : List OAIMsg) (id : String) : Prop :=
  ∃ m ∈ msgs, ∃ tc ∈ m.tool_calls.getD [], strTruthy tc.id = some id

/-- The id-resolution rule the specification states for tool messages:
the client-supplied `tool_call_id` wins; otherwise the oldest pending id
queued for the tool's function name; otherwise `unknown`.  Stated from
the spec's words, to be compared with the translator's behaviour. -/
def toolIdResolutionSpec (st : TransState) (msg : OAIMsg) : String :=
  match strTruthy msg.tool_call_id with
  | some i => i
  | none =>
      match st.pendingCallIdsByName.lookup ((strTruthy msg.name).getD "unknown") with
      | some (h :: _) => h
      | _ => "unknown"

/-- Invariant carried through the translator fold: `P` holds for every
function-call id already emitted and for every id pending in the queues. -/
def StateIdsP (P : String → Prop) (st : TransState) : Prop :=
  (∀ c ∈ st.contents, ∀ p ∈ c.parts, ∀ i n a sg,
    p = GPart.functionCall i n a sg → P i) ∧
  (∀ kv ∈ st.pendingCallIdsByName, ∀ id ∈ kv.2, P id)

/-! ## Stream transformer (src/antigravity/streamTransformer.ts)

The transformer turns the upstream Gemini SSE byte stream into
newline-delimited OpenAI chunk objects.  The embedding works at the
decoded-string level (the UTF-8 decoder is the identity on the character
sequence), takes `JSON.parse` as the parameter `parse`, `crypto.randomUUID`
as `uuids` (drawn in order), and the `ENV.keepThinking` flag as `keep`.
An upstream read sequence is a list of string chunks followed by either a
clean end (`outcome = none`) or a read error with a message. -/

/-- JS whitespace for `String.prototype.trim` (ASCII range). -/
def isJsSpace (c : Char) : Bool := c = ' ' || c = '\t' || c = '\n' || c = '\r'

/-- JS `String.prototype.trim`. -/
def strTrim (s : String) : String :=
  ⟨((s.data.dropWhile isJsSpace).reverse.dropWhile isJsSpace).reverse⟩

/-- JS `String.prototype.substring(n)`. -/
def strDrop (s : String) (n : Nat) : String := ⟨s.data.drop n⟩

/-- JSON string escaping for `JSON.stringify`. -/
def escapeChar (c : Char) : List Char :=
  if c = '"' then ['\\', '"']
  else if c = '\\' then ['\\', '\\']
  else if c = '\n' then ['\\', 'n']
  else if c = '\r' then ['\\', 'r']
  else if c = '\t' then ['\\', 't']
  else if c.toNat < 32 then
    ['\\', 'u', '0', '0', Nat.digitChar (c.toNat / 16), Nat.digitChar (c.toNat % 16)]
  else [c]

mutual

/-- Embeds `JSON.stringify` on parsed values. -/
def jsonStringify : Json → String
  | .null => "null"
  | .bool true => "true"
  | .bool false => "false"
  | .num n => toString n
  | .str s => "\"" ++ ⟨s.data.flatMap escapeChar⟩ ++ "\""
  | .arr xs => "[" ++ stringifyElems xs ++ "]"
  | .obj fs => "\x7b" ++ stringifyFields fs ++ "\x7d"

/-- Comma-joined array elements. -/
def stringifyElems : List Json → String
  | [] => ""
  | [x] => jsonStringify x
  | x :: xs => jsonStringify x ++ "," ++ stringifyElems xs

/-- Comma-joined object members. -/
def stringifyFields : List (String × Json) → String
  | [] => ""
  | [(k, v)] => "\"" ++ ⟨k.data.flatMap escapeChar⟩ ++ "\":" ++ jsonStringify v
  | (k, v) :: fs =>
      "\"" ++ ⟨k.data.flatMap escapeChar⟩ ++ "\":" ++ jsonStringify v ++ "," ++
        stringifyFields fs

end

/-- Per-response transformer state (`StreamContext` in the source): the
monotone tool-call index and the set of parts positions whose function
call was already emitted. -/
structure StreamContext where
  toolCallIndex : Nat
  emittedFunctionCalls : Finset Nat
  deriving DecidableEq

def initStreamCtx : StreamContext := ⟨0, ∅⟩

/-- A tool-call delta as emitted inside an OpenAI chunk. -/
structure ToolCallDelta where
  index : Nat
  id : String
  callType : String
  name : Option Json
  arguments : String
  deriving Repr, DecidableEq

/-- One emitted OpenAI chunk object: a text delta, a tool-call delta, the
final stop chunk, or the error chunk (which carries its full delta
content and `finish_reason: "stop"`). -/
inductive OutChunk where
  | contentDelta (c : Json)
  | toolCallDelta (t : ToolCallDelta)
  | stopChunk
  | errorStop (content : String)
  deriving Repr, DecidableEq

/-- The `finish_reason` field of an emitted chunk. -/
def finishReason : OutChunk → Option String
  | .stopChunk => some "stop"
  | .errorStop _ => some "stop"
  | _ => none

/-- Number of tool-call chunks in an output list. -/
def countToolCalls (l : List OutChunk) : Nat :=
  (l.filter (fun c => match c with | .toolCallDelta _ => true | _ => false)).length

/-- JS member read by numeric index `x?.[i]`: array element, object member
with the decimal key, or single character of a string. -/
def jindex : Json → Nat → Option Json
  | .arr xs, i => xs.get? i
  | .obj fs, i => fs.lookup (toString i)
  | .str s, i => (s.data.get? i).map (fun c => Json.str ⟨[c]⟩)
  | _, _ => none

/-- The optional chain `.candidates?.[0]?.content?.parts` from a root. -/
def chainParts (root : Json) : Option Json :=
  ((Json.jget root "candidates").bind (fun cs => jindex cs 0)).bind
    (fun c0 => (Json.jget c0 "content").bind (fun ct => Json.jget ct "parts"))

/-- The parts extraction of `processGeminiChunk`:
`data.response?.candidates?.[0]?.content?.parts ||
 data.candidates?.[0]?.content?.parts`. -/
def getPartsValue (data : Json) : Option Json :=
  let p1 := (Json.jget data "response").bind chainParts
  if Json.otruthy p1 then p1 else chainParts data

/-- Elements iterated by the `for i < parts.length` loop.  Non-array
Json.truthy values either iterate vacuously or (for strings) over single
characters, which carry no `text` or `functionCall` member and so
contribute nothing; they are modelled as the empty iteration. -/
def partsElems : Json → List Json
  | .arr xs => xs
  | _ => []

/-- The rest-destructuring base `\x7b __thinking_text, ...cleanArgs \x7d`:
own enumerable members of the value (object members, array or string
indices as decimal keys, nothing for primitives). -/
def spreadToFields : Json → List (String × Json)
  | .obj fs => fs
  | .arr xs => xs.enum.map (fun p => (toString p.1, p.2))
  | .str s => s.data.enum.map (fun p => (toString p.1, Json.str ⟨[p.2]⟩))
  | _ => []

/-- Whether a part at some position makes the loop emit (or dedup-record)
a function call: it has a Json.truthy `functionCall` and is not skipped by the
thought filter (`continue` fires before the function-call branch when the
part carries Json.truthy thought text and keep-thinking is off). -/
def partEmitsFC (keep : Bool) (p : Json) : Bool :=
  Json.otruthy (Json.jget p "functionCall") &&
    !(Json.otruthy (Json.jget p "text") && decide (Json.jget p "thought" = some (Json.bool true)) && !keep)

/-- Embeds the body of the `for` loop of `processGeminiChunk` for the part
at position `i`. -/
def processPart (keep : Bool) (uuids : Nat → String) (i : Nat) (part : Json)
    (ctx : StreamContext) : StreamContext × List OutChunk :=
  let textVal := Json.jget part "text"
  if Json.otruthy textVal ∧ Json.jget part "thought" = some (Json.bool true) ∧ keep = false then
    (ctx, [])
  else
    let textOut : List OutChunk := match textVal with
      | some t => if Json.truthy t then [.contentDelta t] else []
      | none => []
    match Json.jget part "functionCall" with
    | some fc =>
        if Json.truthy fc then
          if i ∈ ctx.emittedFunctionCalls then (ctx, textOut)
          else
            let argsVal := match Json.jget fc "args" with
              | some a => if Json.truthy a then a else Json.obj []
              | none => Json.obj []
            let cleanArgs :=
              Json.obj ((spreadToFields argsVal).filter (fun kv => kv.1 ≠ "__thinking_text"))
            let callId := mkCallId (uuids ctx.toolCallIndex)
            (⟨ctx.toolCallIndex + 1, insert i ctx.emittedFunctionCalls⟩,
             textOut ++ [.toolCallDelta ⟨ctx.toolCallIndex, callId, "function",
               Json.jget fc "name", jsonStringify cleanArgs⟩])
        else (ctx, textOut)
    | none => (ctx, textOut)

/-- The part loop from position `i`. -/
def processParts (keep : Bool) (uuids : Nat → String) :
    Nat → List Json → StreamContext → StreamContext × List OutChunk
  | _, [], ctx => (ctx, [])
  | i, p :: ps, ctx =>
      let r1 := processPart keep uuids i p ctx
      let r2 := processParts keep uuids (i + 1) ps r1.1
      (r2.1, r1.2 ++ r2.2)

/-- Embeds `processGeminiChunk` (src/antigravity/streamTransformer.ts
line 154). -/
def processGeminiChunk (keep : Bool) (uuids : Nat → String) (data : Json)
    (ctx : StreamContext) : StreamContext × List OutChunk :=
  match getPartsValue data with
  | some parts =>
      if Json.truthy parts then processParts keep uuids 0 (partsElems parts) ctx
      else (ctx, [])
  | none => (ctx, [])

/-- The parsed-frame sequence semantics: `processGeminiChunk` folded over
a list of frames with outputs concatenated in order. -/
def processChunks (keep : Bool) (uuids : Nat → String) :
    List Json → StreamContext → StreamContext × List OutChunk
  | [], ctx => (ctx, [])
  | c :: cs, ctx =>
      let r1 := processGeminiChunk keep uuids c ctx
      let r2 := processChunks keep uuids cs r1.1
      (r2.1, r1.2 ++ r2.2)

/-- Embeds `processLine` (src/antigravity/streamTransformer.ts line 128). -/
def processLine (parse : String → Option Json) (keep : Bool) (uuids : Nat → String)
    (line : String) (ctx : StreamContext) : StreamContext × List OutChunk :=
  if line = "" ∨ ¬ strStartsWith line "data:" then (ctx, [])
  else
    let jsonText := strTrim (strDrop line 5)
    if jsonText = "" ∨ jsonText = "[DONE]" then (ctx, [])
    else
      match parse jsonText with
      | some d => processGeminiChunk keep uuids d ctx
      | none => (ctx, [])

/-- Read-loop accumulator: retained partial line, stream context, outputs
so far. -/
structure TransformAcc where
  buffer : String
  ctx : StreamContext
  outs : List OutChunk

def initTransformAcc : TransformAcc := ⟨"", initStreamCtx, []⟩

/-- One iteration of the read loop: append the decoded chunk to the
buffer, split on newlines, retain the trailing partial line, and process
every complete line (trimmed). -/
def transformRead (parse : String → Option Json) (keep : Bool) (uuids : Nat → String)
    (acc : TransformAcc) (chunk : String) : TransformAcc :=
  let buffer := acc.buffer ++ chunk
  let lines := buffer.splitOn "\n"
  let rest := (lines.getLast?).getD ""
  let folded := lines.dropLast.foldl
    (fun (a : StreamContext × List OutChunk) ln =>
      let r := processLine parse keep uuids (strTrim ln) a.1
      (r.1, a.2 ++ r.2))
    (acc.ctx, acc.outs)
  ⟨rest, folded.1, folded.2⟩

/-- End-of-stream handling on the clean path: the trimmed remainder is
tried as one more SSE line or as raw JSON (object or array), and the
final stop chunk is appended. -/
def transformEnd (parse : String → Option Json) (keep : Bool) (uuids : Nat → String)
    (acc : TransformAcc) : List OutChunk :=
  let t := strTrim acc.buffer
  let r : StreamContext × List OutChunk :=
    if t ≠ "" then
      if strStartsWith t "data:" then processLine parse keep uuids t acc.ctx
      else if strStartsWith t "[" ∨ strStartsWith t "\x7b" then
        match parse t with
        | some j =>
            let items := match j with
              | .arr xs => xs
              | other => [other]
            processChunks keep uuids items acc.ctx
        | none => (acc.ctx, [])
      else (acc.ctx, [])
    else (acc.ctx, [])
  acc.outs ++ r.2 ++ [.stopChunk]

/-- Embeds `transformGeminiToOpenAIStream` (src/antigravity/
streamTransformer.ts line 62) over a read sequence: on a clean end the
remainder is flushed and the stop chunk appended; on a read error the
single error chunk (with its `Stream error` delta content and
`finish_reason: "stop"`) is emitted instead and nothing follows. -/
def transformGeminiToOpenAIStream (parse : String → Option Json) (keep : Bool)
    (uuids : Nat → String) (reads : List String) (outcome : Option String) :
    List OutChunk :=
  let acc := reads.foldl (transformRead parse keep uuids) initTransformAcc
  match outcome with
  | none => transformEnd parse keep uuids acc
  | some msg => acc.outs ++ [.errorStop ("\n\nStream error: " ++ msg)]

/-- A frame of the client SSE response built by `streamResponse`
(src/routes/models.ts line 233): each transformer chunk is re-parsed from
its JSON line, enriched with response metadata and emitted as one `data:`
frame (the round trip is lossless at this granularity), and a single
`data: [DONE]` terminator follows. -/
inductive SSEFrame where
  | dataFrame (chunk : OutChunk)
  | doneFrame
  deriving Repr, DecidableEq

/-- The client SSE frame sequence for a transformer output. -/
def clientSSEFrames (chunks : List OutChunk) : List SSEFrame :=
  chunks.map .dataFrame ++ [.doneFrame]

/-- Positions, counted from `i`, of parts that make the loop emit or
record a function call. -/
def fcPosFrom (keep : Bool) : Nat → List Json → Finset Nat
  | _, [] => ∅
  | i, p :: ps =>
      (if partEmitsFC keep p then {i} else ∅) ∪ fcPosFrom keep (i + 1) ps

/-- Function-call positions of one upstream frame. -/
def chunkFCPositions (keep : Bool) (data : Json) : Finset Nat :=
  match getPartsValue data with
  | some parts =>
      if Json.truthy parts then fcPosFrom keep 0 (partsElems parts) else ∅
  | none => ∅

/-- Function-call positions over a whole frame sequence. -/
def allFCPositions (keep : Bool) (cs : List Json) : Finset Nat :=
  cs.foldr (fun c acc => chunkFCPositions keep c ∪ acc) ∅

/-- Rewrites the `id` member of a part's `functionCall` object, leaving
everything else untouched (used to state that the transformer ignores
upstream-provided call ids). -/
def withFcId (p : Json) (v : Json) : Json :=
  match p with
  | .obj fs => .obj (fs.map (fun kv =>
      if kv.1 = "functionCall" then
        (kv.1, match kv.2 with
          | .obj g => Json.obj (Json.setKey g "id" v)
          | other => other)
      else kv))
  | other => other

/-- The stream context reached by the end-of-stream handling (same code
path as `transformEnd`, observed on the context component). -/
def transformEndCtx (parse : String → Option Json) (keep : Bool) (uuids : Nat → String)
    (acc : TransformAcc) : StreamContext :=
  let t := strTrim acc.buffer
  if t ≠ "" then
    if strStartsWith t "data:" then (processLine parse keep uuids t acc.ctx).1
    else if strStartsWith t "[" ∨ strStartsWith t "\x7b" then
      match parse t with
      | some j =>
          let items := match j with
            | .arr xs => xs
            | other => [other]
          (processChunks keep uuids items acc.ctx).1
      | none => acc.ctx
    else acc.ctx
  else acc.ctx

/-- The final stream context of a whole transformer run (the context
component of the same computation as `transformGeminiToOpenAIStream`). -/
def transformFinalCtx (parse : String → Option Json) (keep : Bool)
    (uuids : Nat → String) (reads : List String) (outcome : Option String) :
    StreamContext :=
  let acc := reads.foldl (transformRead parse keep uuids) initTransformAcc
  match outcome with
  | none => transformEndCtx parse keep uuids acc
  | some _ => acc.ctx

/-- A well-formed UUID value (32 hex characters, no dashes) used as the
concrete uuid supply in witnesses. -/
def wUuid : String := "0123456789abcdef0123456789abcdef"

/-- A concrete part carrying a function call, for witnesses. -/
def wPart : Json :=
  Json.obj [("functionCall", Json.obj [("name", Json.str "f"),
    ("args", Json.obj [("x", Json.num 1)])])]

/-- A concrete upstream frame whose first candidate's parts list holds
`wPart` at position 0, for witnesses. -/
def wFrame : Json :=
  Json.obj [("candidates", Json.arr [Json.obj [("content",
    Json.obj [("parts", Json.arr [wPart])])]])]

/-- A concrete part carrying a different function call (other name and
arguments) than `wPart`, for witnesses. -/
def wPart2 : Json :=
  Json.obj [("functionCall", Json.obj [("name", Json.str "g"),
    ("args", Json.obj [("y", Json.num 2)])])]

/-- A concrete upstream frame holding `wPart2` at position 0, for
witnesses. -/
def wFrame2 : Json :=
  Json.obj [("candidates", Json.arr [Json.obj [("content",
    Json.obj [("parts", Json.arr [wPart2])])]])]

/-- `typeof v === "object" && v` in JS terms for parsed JSON values:
objects and arrays pass, `null` (falsy) and primitives do not. -/
def objLike : Json → Bool
  | Json.obj _ => true
  | Json.arr _ => true
  | _ => false

/-- The `unsupported` key list of `cleanJsonSchema`
(src/antigravity/schemaCleanup.ts line 228). -/
def lightUnsupported : List String :=
  ["minLength", "maxLength", "pattern", "format",
   "examples", "default", "strict", "$schema", "additionalProperties"]

mutual

/-- Embeds the value returned by `cleanJsonSchema` (the light sanitizer,
src/antigravity/schemaCleanup.ts line 226): shallow-copy via spread, drop
the unsupported top-level keys, clean every entry of an object-typed
truthy `properties` member, and clean an object-typed truthy `items`
member. -/
def cleanJsonSchema : Json → Json
  | Json.obj fs => Json.obj (cleanLightFields fs)
  | other => Json.obj (spreadToFields other)

/-- One pass over the copied field list: the top-level deletes followed
by the `properties` and `items` rewrites, binding by binding. -/
def cleanLightFields : List (String × Json) → List (String × Json)
  | [] => []
  | kv :: t =>
      if lightUnsupported.contains kv.1 then cleanLightFields t
      else if kv.1 == "properties" && objLike kv.2 then
        (kv.1, mapCleanEntries kv.2) :: cleanLightFields t
      else if kv.1 == "items" && objLike kv.2 then
        (kv.1, cleanJsonSchema kv.2) :: cleanLightFields t
      else kv :: cleanLightFields t

/-- The `for key in props` loop: every own entry of the `properties`
value (object members or array elements) is replaced by its cleaned
form. -/
def mapCleanEntries : Json → Json
  | Json.obj gs => Json.obj (cleanEntryList gs)
  | Json.arr xs => Json.arr (cleanElemList xs)
  | other => other

def cleanEntryList : List (String × Json) → List (String × Json)
  | [] => []
  | kv :: t => (kv.1, cleanJsonSchema kv.2) :: cleanEntryList t

def cleanElemList : List Json → List Json
  | [] => []
  | x :: xs => cleanJsonSchema x :: cleanElemList xs

end

mutual

/-- The value of the INPUT tree after `cleanJsonSchema` returns: the
shallow copy aliases the input's `properties` object, whose entries the
`for key in props` loop overwrites in place, and the recursive call on an
object-typed `items` member mutates that subtree the same way.  All
other members are untouched (deletes and the `items` write happen on the
copy). -/
def cleanJsonSchemaPost : Json → Json
  | Json.obj fs => Json.obj (postLightFields fs)
  | other => other

def postLightFields : List (String × Json) → List (String × Json)
  | [] => []
  | kv :: t =>
      (if kv.1 == "properties" && objLike kv.2 then (kv.1, mapCleanEntries kv.2)
       else if kv.1 == "items" && objLike kv.2 then (kv.1, cleanJsonSchemaPost kv.2)
       else kv) :: postLightFields t

end

mutual

/-- A sufficient (not necessary) condition for the light sanitizer to
leave its input unmodified: no object-typed `properties` member at any
level reachable through object-typed `items` members. -/
def untouchedLight : Json → Bool
  | Json.obj fs => untouchedFields fs
  | _ => true

def untouchedFields : List (String × Json) → Bool
  | [] => true
  | kv :: t =>
      (!(kv.1 == "properties" && objLike kv.2)) &&
      (!(kv.1 == "items" && objLike kv.2) || untouchedLight kv.2) &&
      untouchedFields t

end

/-- Per-refresh-token oauth state, one event-loop segment at a time
(src/routes/chatCompletions.ts): whether `tokenCache` holds an unexpired
entry for the key, whether `refreshPromises` holds an in-flight promise
for it, and how many outbound POSTs to the token endpoint have been
issued. -/
structure OAuthState where
  cacheValid : Bool
  inflight : Bool
  posts : Nat
  deriving DecidableEq, Repr

/-- What one `getAccessToken` call returns: the cached token, or the
promise of refresh number `generation` (the leader that issued POST
number `generation` and every concurrent caller that joined it receive
the same promise, hence the same result). -/
inductive CallResult where
  | hit
  | share (generation : Nat)
  deriving DecidableEq, Repr

/-- One `getAccessToken` invocation as a single atomic event-loop
segment: the body from the `tokenCache.get` check through
`refreshPromises.set` contains no `await`, and the call
`refreshAccessToken(refreshToken)` inside it runs synchronously up to
its first `await` — the `fetch` that issues the POST — so cache check,
in-flight check, POST issue and in-flight registration cannot
interleave with other callers. -/
def getAccessTokenStep (st : OAuthState) : OAuthState × CallResult :=
  if st.cacheValid then (st, .hit)
  else if st.inflight then (st, .share st.posts)
  else ({ st with inflight := true, posts := st.posts + 1 }, .share (st.posts + 1))

/-- Settlement of the in-flight refresh: on success the token is cached
unexpired; on failure the cache entry is deleted for 400/401 (`evict`)
and left alone otherwise; the `.finally` handler deletes the
`refreshPromises` entry in every case. -/
def resolveStep (st : OAuthState) (ok evict : Bool) : OAuthState :=
  if ok then { st with cacheValid := true, inflight := false }
  else { st with cacheValid := st.cacheValid && !evict, inflight := false }

/-- A burst of concurrent `getAccessToken` calls, segment by segment. -/
def runCalls : Nat → OAuthState → OAuthState × List CallResult
  | 0, st => (st, [])
  | n + 1, st =>
      let r := getAccessTokenStep st
      let rest := runCalls n r.1
      (rest.1, r.2 :: rest.2)

mutual

/-- JS `String(v)` conversion for parsed values. -/
def jsToString : Json → String
  | Json.null => "null"
  | Json.bool true => "true"
  | Json.bool false => "false"
  | Json.num n => toString n
  | Json.str s => s
  | Json.arr xs => jsJoinComma xs
  | Json.obj _ => "[object Object]"

/-- `Array.prototype.toString` = `join(",")`, where `null` elements
become empty strings. -/
def jsJoinComma : List Json → String
  | [] => ""
  | [x] => jsElemStr x
  | x :: xs => jsElemStr x ++ "," ++ jsJoinComma xs

def jsElemStr : Json → String
  | Json.null => ""
  | Json.bool b => jsToString (Json.bool b)
  | Json.num n => jsToString (Json.num n)
  | Json.str s => jsToString (Json.str s)
  | Json.arr xs => jsToString (Json.arr xs)
  | Json.obj fs => jsToString (Json.obj fs)

end

/-- `UNSUPPORTED_CONSTRAINTS` (src/antigravity/schemaCleanup.ts line 251). -/
def strictConstraints : List String :=
  ["minLength", "maxLength", "exclusiveMinimum", "exclusiveMaximum",
   "pattern", "minItems", "maxItems", "format", "default", "examples"]

/-- `UNSUPPORTED_KEYWORDS` (line 257). -/
def strictKeywords : List String :=
  strictConstraints ++ ["$schema", "$defs", "definitions", "const", "$ref",
    "additionalProperties", "propertyNames", "title", "$id", "$comment"]

/-- Embeds `appendHint`: returns `\x7b...schema, description\x7d` on objects
(and arrays, via spread), and the value unchanged otherwise. -/
def appendHint (schema : Json) (hint : String) : Json :=
  if objLike schema then
    let existing := match Json.jget schema "description" with
      | some (Json.str d) => d
      | _ => ""
    Json.obj (Json.setKey (spreadToFields schema) "description"
      (Json.str (if existing ≠ "" then existing ++ " (" ++ hint ++ ")" else hint)))
  else schema

/-- First-occurrence deduplication (`Array.from(new Set(...))`,
`includes`) by structural equality; the source only ever deduplicates
lists of strings, where JS SameValueZero agrees with structural
equality. -/
def dedupJson (xs : List Json) : List Json :=
  xs.foldl (fun l x => if l.any (fun y => decide (y = x)) then l else l ++ [x]) []

mutual

/-- Executable size of a parsed value. -/
def jsonSize : Json → Nat
  | Json.obj fs => 1 + jsonSizeFields fs
  | Json.arr xs => 1 + jsonSizeList xs
  | _ => 1

def jsonSizeFields : List (String × Json) → Nat
  | [] => 0
  | kv :: t => 1 + jsonSize kv.2 + jsonSizeFields t

def jsonSizeList : List Json → Nat
  | [] => 0
  | x :: xs => 1 + jsonSize x + jsonSizeList xs

end

/-- Fuel bound for the strict passes: strictly larger than the recursion
depth of every embedded pass on the given input (each recursive call
descends into strictly smaller or at most once-reprocessed content, so
the depth never exceeds twice the tree size); on exhaustion the argument
is returned unchanged, a case that is never reached. -/
def strictFuel (j : Json) : Nat := (jsonSize j + 8) * (jsonSize j + 8)

/-- Embeds `convertRefsToHints` (fueled). -/
def convertRefsToHintsF : Nat → Json → Json
  | 0, j => j
  | f + 1, j =>
      if objLike j then
        match j with
        | Json.arr xs => Json.arr (xs.map (convertRefsToHintsF f))
        | Json.obj fs =>
            match fs.lookup "$ref" with
            | some (Json.str r) =>
                let defName := if strIncludes r "/" then ((r.splitOn "/").getLast?).getD "" else r
                let desc := match fs.lookup "description" with
                  | some (Json.str d) => d
                  | _ => ""
                let hint := "See: " ++ defName
                Json.obj [("type", Json.str "object"),
                  ("description", Json.str (if desc ≠ "" then desc ++ " (" ++ hint ++ ")" else hint))]
            | _ => Json.obj (Json.spreadFields []
                (fs.map (fun kv => (kv.1, convertRefsToHintsF f kv.2))))
        | other => other
      else j

/-- Embeds `convertConstToEnum` (fueled): a `const` entry becomes an
`enum` write (JS member-write semantics) when the node's `enum` is
falsy. -/
def convertConstToEnumF : Nat → Json → Json
  | 0, j => j
  | f + 1, j =>
      if objLike j then
        match j with
        | Json.arr xs => Json.arr (xs.map (convertConstToEnumF f))
        | Json.obj fs =>
            let enumTruthy := Json.otruthy (fs.lookup "enum")
            Json.obj (Json.spreadFields []
              (fs.map (fun kv =>
                if kv.1 == "const" && !enumTruthy then ("enum", Json.arr [kv.2])
                else (kv.1, convertConstToEnumF f kv.2))))
        | other => other
      else j

/-- Embeds `addEnumHints` (fueled). -/
def addEnumHintsF : Nat → Json → Json
  | 0, j => j
  | f + 1, j =>
      if objLike j then
        match j with
        | Json.arr xs => Json.arr (xs.map (addEnumHintsF f))
        | Json.obj fs =>
            let r1 : List (String × Json) :=
              match fs.lookup "enum" with
              | some (Json.arr es) =>
                  if 1 < es.length && es.length ≤ 10 then
                    match appendHint (Json.obj fs)
                      ("Allowed: " ++ String.intercalate ", " (es.map jsToString)) with
                    | Json.obj gs => gs
                    | _ => fs
                  else fs
              | _ => fs
            Json.obj (r1.map (fun kv =>
              if kv.1 != "enum" && objLike kv.2 then (kv.1, addEnumHintsF f kv.2) else kv))
        | other => other
      else j

/-- Embeds `addAdditionalPropertiesHints` (fueled). -/
def addAdditionalPropertiesHintsF : Nat → Json → Json
  | 0, j => j
  | f + 1, j =>
      if objLike j then
        match j with
        | Json.arr xs => Json.arr (xs.map (addAdditionalPropertiesHintsF f))
        | Json.obj fs =>
            let r1 : List (String × Json) :=
              match fs.lookup "additionalProperties" with
              | some (Json.bool false) =>
                  match appendHint (Json.obj fs) "No extra properties allowed" with
                  | Json.obj gs => gs
                  | _ => fs
              | _ => fs
            Json.obj (r1.map (fun kv =>
              if kv.1 != "additionalProperties" && objLike kv.2 then
                (kv.1, addAdditionalPropertiesHintsF f kv.2)
              else kv))
        | other => other
      else j

/-- Embeds `moveConstraintsToDescription` (fueled): present non-object
constraint values (`null` has typeof object and is skipped) are hinted,
then every object-valued member is recursed. -/
def moveConstraintsToDescriptionF : Nat → Json → Json
  | 0, j => j
  | f + 1, j =>
      if objLike j then
        match j with
        | Json.arr xs => Json.arr (xs.map (moveConstraintsToDescriptionF f))
        | Json.obj fs =>
            let r1 : Json := strictConstraints.foldl (fun acc c =>
              match Json.jget acc c with
              | some (Json.bool b) => appendHint acc (c ++ ": " ++ jsToString (Json.bool b))
              | some (Json.num n) => appendHint acc (c ++ ": " ++ jsToString (Json.num n))
              | some (Json.str s) => appendHint acc (c ++ ": " ++ jsToString (Json.str s))
              | _ => acc) (Json.obj fs)
            match r1 with
            | Json.obj gs => Json.obj (gs.map (fun kv =>
                if objLike kv.2 then (kv.1, moveConstraintsToDescriptionF f kv.2) else kv))
            | other => other
        | other => other
      else j

/-- Embeds `mergeAllOf` (fueled): accumulate the items' properties (by
object spread), required lists (first-occurrence dedup) and
first-come other members, write them into the node (members only when
absent), delete `allOf`, then recurse into every object-valued
member. -/
def mergeAllOfF : Nat → Json → Json
  | 0, j => j
  | f + 1, j =>
      if objLike j then
        match j with
        | Json.arr xs => Json.arr (xs.map (mergeAllOfF f))
        | Json.obj fs =>
            let r1 : List (String × Json) :=
              match fs.lookup "allOf" with
              | some (Json.arr items) =>
                  let m := items.foldl (fun (acc :
                      Option (List (String × Json)) × List Json × List (String × Json))
                      (item : Json) =>
                    if objLike item then
                      let mp := if Json.otruthy (Json.jget item "properties") then
                          some (Json.spreadFields (acc.1.getD [])
                            (spreadToFields ((Json.jget item "properties").getD Json.null)))
                        else acc.1
                      let mr := match Json.jget item "required" with
                        | some (Json.arr rs) => rs.foldl (fun l r =>
                            if l.any (fun y => decide (y = r)) then l else l ++ [r]) acc.2.1
                        | _ => acc.2.1
                      let mo := (spreadToFields item).foldl (fun l kv =>
                          if kv.1 != "properties" && kv.1 != "required" &&
                             !(l.any (fun kv2 => kv2.1 == kv.1))
                          then l ++ [kv] else l) acc.2.2
                      (mp, mr, mo)
                    else acc) (none, [], [])
                  let r_a := match m.1 with
                    | some mprops =>
                        Json.setKey fs "properties"
                          (Json.obj (Json.spreadFields
                            (spreadToFields ((fs.lookup "properties").getD Json.null)) mprops))
                    | none => fs
                  let r_b := if m.2.1.length > 0 then
                      let base : List Json := match fs.lookup "required" with
                        | some (Json.arr xs) => xs
                        | some (Json.str st) => st.data.map (fun c => Json.str ⟨[c]⟩)
                        | _ => []
                      Json.setKey r_a "required" (Json.arr (dedupJson (base ++ m.2.1)))
                    else r_a
                  let r_c := m.2.2.foldl (fun l kv =>
                      if (l.lookup kv.1).isSome then l else l ++ [kv]) r_b
                  Json.delKey r_c "allOf"
              | _ => fs
            Json.obj (r1.map (fun kv =>
              if objLike kv.2 then (kv.1, mergeAllOfF f kv.2) else kv))
        | other => other
      else j

/-- Embeds `scoreOption`: complexity score and the type name pushed into
the accepts-hint (kept as a Json value, as in the source at runtime). -/
def scoreOption (s : Json) : Int × Json :=
  if objLike s then
    if decide (Json.jget s "type" = some (Json.str "object")) ||
       Json.otruthy (Json.jget s "properties") then (3, Json.str "object")
    else if decide (Json.jget s "type" = some (Json.str "array")) ||
       Json.otruthy (Json.jget s "items") then (2, Json.str "array")
    else match Json.jget s "type" with
      | some t =>
          if Json.truthy t && !(decide (t = Json.str "null")) then (1, t)
          else (0, if Json.truthy t then t else Json.str "null")
      | none => (0, Json.str "null")
  else (0, Json.str "unknown")

/-- Embeds the option walk of `tryMergeEnumFromUnion`. -/
def tryMergeAux : List Json → List Json → Option (List Json)
  | [], vals => some vals
  | opt :: rest, vals =>
      if objLike opt then
        if (Json.jget opt "const").isSome then
          tryMergeAux rest (vals ++ [Json.str (jsToString ((Json.jget opt "const").getD Json.null))])
        else match Json.jget opt "enum" with
          | some (Json.arr es) =>
              tryMergeAux rest (vals ++ es.map (fun e => Json.str (jsToString e)))
          | _ =>
              if Json.otruthy (Json.jget opt "properties") ||
                 Json.otruthy (Json.jget opt "items") ||
                 Json.otruthy (Json.jget opt "anyOf") ||
                 Json.otruthy (Json.jget opt "oneOf") ||
                 Json.otruthy (Json.jget opt "allOf") then none
              else if Json.otruthy (Json.jget opt "type") &&
                  !(Json.otruthy (Json.jget opt "const")) &&
                  !(Json.otruthy (Json.jget opt "enum")) then none
              else tryMergeAux rest vals
      else none

/-- Embeds `tryMergeEnumFromUnion`. -/
def tryMergeEnumFromUnion (options : List Json) : Option (List Json) :=
  if options.length = 0 then none
  else match tryMergeAux options [] with
    | some vals => if vals.length > 0 then some vals else none
    | none => none

/-- The best-option scan of `flattenAnyOfOneOf`: running index, best
score (starting at -1), best index and the collected truthy type
names. -/
def pickBest (options : List Json) : Nat × List Json :=
  let r := options.foldl (fun (acc : Nat × Int × Nat × List Json) (opt : Json) =>
    let sc := scoreOption opt
    let ts := if Json.truthy sc.2 then acc.2.2.2 ++ [sc.2] else acc.2.2.2
    if sc.1 > acc.2.1 then (acc.1 + 1, sc.1, acc.1, ts)
    else (acc.1 + 1, acc.2.1, acc.2.2.1, ts)) (0, -1, 0, [])
  (r.2.2.1, r.2.2.2)

/-- One `unionKey` iteration of `flattenAnyOfOneOf`; `recur` is the
recursive call at the current fuel. -/
def flattenUnionKeyF (recur : Json → Json) (uk : String) (fsIn : List (String × Json)) :
    List (String × Json) :=
  match fsIn.lookup uk with
  | some (Json.arr options) =>
      if options.length = 0 then fsIn
      else
        let parentDesc := match fsIn.lookup "description" with
          | some (Json.str d) => d
          | _ => ""
        match tryMergeEnumFromUnion options with
        | some vals =>
            let rest := Json.delKey fsIn uk
            let r1 := Json.setKey (Json.setKey rest "type" (Json.str "string"))
              "enum" (Json.arr vals)
            if parentDesc ≠ "" then Json.setKey r1 "description" (Json.str parentDesc)
            else r1
        | none =>
            let pb := pickBest options
            let sel0 := recur (options.getD pb.1 Json.null)
            let sel1 := if Json.truthy sel0 then sel0
              else Json.obj [("type", Json.str "string")]
            let sel2 := if parentDesc ≠ "" then
                let childDesc := match Json.jget sel1 "description" with
                  | some (Json.str d) => d
                  | _ => ""
                Json.obj (Json.setKey (spreadToFields sel1) "description"
                  (Json.str (if childDesc ≠ "" && childDesc ≠ parentDesc then
                    parentDesc ++ " (" ++ childDesc ++ ")" else parentDesc)))
              else sel1
            let sel3 := if pb.2.length > 1 then
                appendHint sel2 ("Accepts: " ++ String.intercalate " | "
                  ((dedupJson pb.2).map jsElemStr))
              else sel2
            let rest := Json.delKey (Json.delKey fsIn uk) "description"
            Json.spreadFields rest (spreadToFields sel3)
  | _ => fsIn

/-- Embeds `flattenAnyOfOneOf` (fueled). -/
def flattenAnyOfOneOfF : Nat → Json → Json
  | 0, j => j
  | f + 1, j =>
      if objLike j then
        match j with
        | Json.arr xs => Json.arr (xs.map (flattenAnyOfOneOfF f))
        | Json.obj fs =>
            let r1 := flattenUnionKeyF (flattenAnyOfOneOfF f) "anyOf" fs
            let r2 := flattenUnionKeyF (flattenAnyOfOneOfF f) "oneOf" r1
            Json.obj (r2.map (fun kv =>
              if objLike kv.2 then (kv.1, flattenAnyOfOneOfF f kv.2) else kv))
        | other => other
      else j

/-- Embeds `flattenTypeArrays` (fueled). -/
def flattenTypeArraysF : Nat → Json → Json
  | 0, j => j
  | f + 1, j =>
      if objLike j then
        match j with
        | Json.arr xs => Json.arr (xs.map (flattenTypeArraysF f))
        | Json.obj fs =>
            let r1 : Json :=
              match fs.lookup "type" with
              | some (Json.arr types) =>
                  let hasNull := types.any (fun t => decide (t = Json.str "null"))
                  let nonNull := types.filter (fun t =>
                    !(decide (t = Json.str "null")) && Json.truthy t)
                  let r := Json.setKey fs "type" (nonNull.headD (Json.str "string"))
                  let r2 := if nonNull.length > 1 then
                      appendHint (Json.obj r) ("Accepts: " ++ String.intercalate " | "
                        (nonNull.map jsElemStr))
                    else Json.obj r
                  if hasNull then appendHint r2 "nullable" else r2
              | _ => Json.obj fs
            match r1 with
            | Json.obj gs => Json.obj (gs.map (fun kv =>
                if objLike kv.2 then (kv.1, flattenTypeArraysF f kv.2) else kv))
            | other => other
        | other => other
      else j

/-- Embeds `removeUnsupportedKeywords` (fueled): keyword members are
dropped except when the node is the map of a `properties` member, whose
keys (property names) are preserved while their values are cleaned. -/
def removeUnsupportedKeywordsF : Nat → Bool → Json → Json
  | 0, _, j => j
  | f + 1, insideProps, j =>
      if objLike j then
        match j with
        | Json.arr xs => Json.arr (xs.map (removeUnsupportedKeywordsF f false))
        | Json.obj fs =>
            Json.obj (Json.spreadFields []
              ((fs.filter (fun kv => !(!insideProps && strictKeywords.contains kv.1))).map
                (fun kv =>
                  if objLike kv.2 then
                    if kv.1 == "properties" then
                      (kv.1, Json.obj (Json.spreadFields []
                        ((spreadToFields kv.2).map (fun kv2 =>
                          (kv2.1, removeUnsupportedKeywordsF f false kv2.2)))))
                    else (kv.1, removeUnsupportedKeywordsF f false kv.2)
                  else kv)))
        | other => other
      else j

/-- The `r in result.properties` membership test: own keys of an object,
index keys and `length` of an array (prototype-inherited names are not
modelled; schema property names never collide with them). -/
def jsHasKey (o : Json) (k : String) : Bool :=
  match o with
  | Json.obj gs => gs.any (fun kv => kv.1 == k)
  | Json.arr xs => k == "length" ||
      (match k.toNat? with
       | some i => toString i == k && i < xs.length
       | none => false)
  | _ => false

/-- Embeds `cleanupRequiredFields` (fueled). -/
def cleanupRequiredFieldsF : Nat → Json → Json
  | 0, j => j
  | f + 1, j =>
      if objLike j then
        match j with
        | Json.arr xs => Json.arr (xs.map (cleanupRequiredFieldsF f))
        | Json.obj fs =>
            let r1 : List (String × Json) :=
              match fs.lookup "required", fs.lookup "properties" with
              | some (Json.arr reqs), some props =>
                  if Json.truthy props && objLike props then
                    let valid := reqs.filter (fun r => jsHasKey props (jsToString r))
                    if valid.length = 0 then Json.delKey fs "required"
                    else Json.setKey fs "required" (Json.arr valid)
                  else fs
              | _, _ => fs
            Json.obj (r1.map (fun kv =>
              if objLike kv.2 then (kv.1, cleanupRequiredFieldsF f kv.2) else kv))
        | other => other
      else j

/-- Embeds `addEmptySchemaPlaceholder` (fueled). -/
def addEmptySchemaPlaceholderF : Nat → Json → Json
  | 0, j => j
  | f + 1, j =>
      if objLike j then
        match j with
        | Json.arr xs => Json.arr (xs.map (addEmptySchemaPlaceholderF f))
        | Json.obj fs =>
            let r1 : List (String × Json) :=
              if decide (fs.lookup "type" = some (Json.str "object")) then
                let hasProps := match fs.lookup "properties" with
                  | some p => Json.truthy p && objLike p && (spreadToFields p).length > 0
                  | none => false
                if !hasProps then
                  Json.setKey (Json.setKey fs "properties"
                    (Json.obj [("_placeholder", Json.obj [("type", Json.str "boolean"),
                      ("description", Json.str "Placeholder for empty schema")])]))
                    "required" (Json.arr [Json.str "_placeholder"])
                else fs
              else fs
            Json.obj (r1.map (fun kv =>
              if objLike kv.2 then (kv.1, addEmptySchemaPlaceholderF f kv.2) else kv))
        | other => other
      else j

/-- Embeds `cleanJSONSchemaForAntigravity` (src/antigravity/
schemaCleanup.ts line 624): the eleven passes in order, all run with the
same ample fuel (the passes grow the tree at most linearly while the
fuel is quadratic in the input size, so the bound holds for every
intermediate as well). -/
def cleanJSONSchemaForAntigravity (s : Json) : Json :=
  if objLike s then
    let r1 := convertRefsToHintsF (strictFuel s) s
    let r2 := convertConstToEnumF (strictFuel s) r1
    let r3 := addEnumHintsF (strictFuel s) r2
    let r4 := addAdditionalPropertiesHintsF (strictFuel s) r3
    let r5 := moveConstraintsToDescriptionF (strictFuel s) r4
    let r6 := mergeAllOfF (strictFuel s) r5
    let r7 := flattenAnyOfOneOfF (strictFuel s) r6
    let r8 := flattenTypeArraysF (strictFuel s) r7
    let r9 := removeUnsupportedKeywordsF (strictFuel s) false r8
    let r10 := cleanupRequiredFieldsF (strictFuel s) r9
    addEmptySchemaPlaceholderF (strictFuel s) r10
  else s

mutual

/-- Structural comparison modulo `description`: every `description`
member is removed at every level. -/
def eraseDesc : Json → Json
  | Json.obj fs => Json.obj (eraseDescFields fs)
  | Json.arr xs => Json.arr (eraseDescList xs)
  | other => other

def eraseDescFields : List (String × Json) → List (String × Json)
  | [] => []
  | kv :: t =>
      if kv.1 == "description" then eraseDescFields t
      else (kv.1, eraseDesc kv.2) :: eraseDescFields t

def eraseDescList : List Json → List Json
  | [] => []
  | x :: xs => eraseDesc x :: eraseDescList xs

end

/-- A schema whose `allOf` merge manufactures a `properties` map holding
a property named `const` next to a property named `enum` with falsy
value — a shape the const-to-enum pass collapses on a second run. -/
def sStrictEx : Json :=
  Json.obj [("type", Json.str "object"),
    ("allOf", Json.arr [
      Json.obj [("properties", Json.obj [
        ("const", Json.obj [("type", Json.str "string")]),
        ("enum", Json.obj [("type", Json.str "number")])])],
      Json.obj [("properties", Json.obj [("enum", Json.num 0)])]])]

/-- The value of one strict cleanup of `sStrictEx` (checked by
evaluation in the counterexample proofs). -/
def sStrictOnce : Json :=
  Json.obj [("type", Json.str "object"),
    ("properties", Json.obj [
      ("const", Json.obj [("type", Json.str "string")]),
      ("enum", Json.num 0)])]

/-! # Theorems -/

/-- Appending `-low` always produces a model whose lowercase ends in a
tier suffix. -/
theorem endsWithTierSuffix_append_low (m : String) :
    endsWithTierSuffix (lowerStr (m ++ "-" ++ "low")) = true := by
  have h1 : strEndsWith (lowerStr (m ++ "-" ++ "low")) "-low" = true := by
    simp only [strEndsWith, lowerStr, String.data_append, List.map_append,
      List.isSuffixOf_iff_suffix, List.append_assoc]
    have e1 : List.map Char.toLower "-".data = "-".data := by decide
    have e2 : List.map Char.toLower "low".data = "low".data := by decide
    rw [e1, e2]
    have e3 : "-".data ++ "low".data = ['-', 'l', 'o', 'w'] := by decide
    rw [e3]
    exact List.suffix_append _ _
  simp [endsWithTierSuffix, h1]

/-- Appending `-high` always produces a model whose lowercase ends in a
tier suffix. -/
theorem endsWithTierSuffix_append_high (m : String) :
    endsWithTierSuffix (lowerStr (m ++ "-" ++ "high")) = true := by
  have h1 : strEndsWith (lowerStr (m ++ "-" ++ "high")) "-high" = true := by
    simp only [strEndsWith, lowerStr, String.data_append, List.map_append,
      List.isSuffixOf_iff_suffix, List.append_assoc]
    have e1 : List.map Char.toLower "-".data = "-".data := by decide
    have e2 : List.map Char.toLower "high".data = "high".data := by decide
    rw [e1, e2]
    have e3 : "-".data ++ "high".data = ['-', 'h', 'i', 'g', 'h'] := by decide
    rw [e3]
    exact List.suffix_append _ _
  simp [endsWithTierSuffix, h1]

/-- The Gemini-3-Pro suffix is always `low` or `high`. -/
theorem mapPro_low_or_high (e : Option ReasoningEffort) :
    mapReasoningEffortToGemini3Pro e = "low" ∨ mapReasoningEffortToGemini3Pro e = "high" := by
  rcases e with _ | e
  · left; rfl
  · cases e
    · left; rfl
    · left; rfl
    · right; rfl
    · left; rfl

/-- Applying `normalizeModelForAntigravity` twice equals applying it
once, for any pair of efforts. -/
theorem normalizeModelForAntigravity_idem (m : String) (e e' : Option ReasoningEffort) :
    normalizeModelForAntigravity (normalizeModelForAntigravity m e) e' =
      normalizeModelForAntigravity m e := by
  by_cases h : (strStartsWith (lowerStr m) "gemini-3-pro" && !endsWithTierSuffix (lowerStr m)) = true
  · have happ : normalizeModelForAntigravity m e =
        m ++ "-" ++ mapReasoningEffortToGemini3Pro e := by
      simp only [normalizeModelForAntigravity, h, if_true]
    rw [happ]
    rcases mapPro_low_or_high e with hs | hs <;> rw [hs]
    · simp [normalizeModelForAntigravity, endsWithTierSuffix_append_low]
    · simp [normalizeModelForAntigravity, endsWithTierSuffix_append_high]
  · have hc : (strStartsWith (lowerStr m) "gemini-3-pro" &&
        !endsWithTierSuffix (lowerStr m)) = false := by
      simpa using h
    have hid : normalizeModelForAntigravity m e = m := by
      simp [normalizeModelForAntigravity, hc]
    rw [hid]
    simp [normalizeModelForAntigravity, hc]

/-- Claim C6: `normalizeModelForAntigravity` appends a tier suffix exactly
when the lowercase model starts with `gemini-3-pro` and does not already
end with `-low`, `-medium`, `-high` or `-minimal`; the suffix is `-high`
for effort `high` and `-low` otherwise (including absent effort); every
other model is returned unchanged; and the function is idempotent, in
particular on models already carrying a tier suffix. -/
theorem c6_normalizeModel_characterization :
    (∀ m e, strStartsWith (lowerStr m) "gemini-3-pro" = true →
      endsWithTierSuffix (lowerStr m) = false →
      normalizeModelForAntigravity m e =
        m ++ "-" ++ mapReasoningEffortToGemini3Pro e) ∧
    (∀ m e, (strStartsWith (lowerStr m) "gemini-3-pro" = false ∨
        endsWithTierSuffix (lowerStr m) = true) →
      normalizeModelForAntigravity m e = m) ∧
    (mapReasoningEffortToGemini3Pro (some .high) = "high" ∧
      ∀ e, e ≠ some .high → mapReasoningEffortToGemini3Pro e = "low") ∧
    (∀ m e e', normalizeModelForAntigravity (normalizeModelForAntigravity m e) e' =
      normalizeModelForAntigravity m e) ∧
    normalizeModelForAntigravity "gemini-3-pro" (some .high) = "gemini-3-pro-high" ∧
    normalizeModelForAntigravity "gemini-3-pro" none = "gemini-3-pro-low" ∧
    normalizeModelForAntigravity "gemini-3-flash" (some .high) = "gemini-3-flash" ∧
    normalizeModelForAntigravity "gpt-4" (some .medium) = "gpt-4" := by
  refine ⟨?_, ?_, ⟨rfl, ?_⟩, normalizeModelForAntigravity_idem, ?_, ?_, ?_, ?_⟩
  · intro m e h1 h2
    simp only [normalizeModelForAntigravity, h1, h2, Bool.not_false, Bool.and_true, if_true]
  · intro m e h
    rcases h with h | h
    · simp [normalizeModelForAntigravity, h]
    · simp [normalizeModelForAntigravity, h]
  · intro e he
    rcases e with _ | e
    · rfl
    · cases e
      · rfl
      · rfl
      · exact absurd rfl he
      · rfl
  · decide
  · decide
  · decide
  · decide

/-- Witness for C6 at concrete inputs, discharging the hypotheses of the
characterization at the model `gemini-3-pro` with effort `high` and at
the already-suffixed model `gemini-3-pro-low`. -/
theorem c6_normalizeModel_witness :
    normalizeModelForAntigravity "gemini-3-pro" (some .high) =
      "gemini-3-pro" ++ "-" ++ mapReasoningEffortToGemini3Pro (some .high) ∧
    normalizeModelForAntigravity "gemini-3-pro-low" (some .high) = "gemini-3-pro-low" := by
  constructor
  · exact c6_normalizeModel_characterization.1 "gemini-3-pro" (some .high)
      (by decide) (by decide)
  · exact c6_normalizeModel_characterization.2.1 "gemini-3-pro-low" (some .high)
      (Or.inr (by decide))

/-- Claim C7 as stated is false: `gemini-3-opus` is Claude-family
(contains `opus`) and thinking-capable, yet the orchestrator takes the
Gemini-3 branch for it and throws `Unsupported Gemini 3 model` instead of
installing the Claude thinking config. -/
theorem c7_counterexample :
    isClaudeModel "gemini-3-opus" = true ∧
    isThinkingCapableModel "gemini-3-opus" = true ∧
    buildGenerationConfig "gemini-3-opus" none none =
      .error "Unsupported Gemini 3 model: gemini-3-opus" := by
  refine ⟨by decide, by decide, ?_⟩
  rfl

/-- On the Claude thinking branch (thinking-capable, not Gemini-3,
Claude-family) the generation config is exactly the snake-cased thinking
record plus the forced-or-preserved `maxOutputTokens`. -/
theorem buildGenerationConfig_claude_eq (model : String) (mt : Option Int)
    (e : Option ReasoningEffort)
    (hc : isClaudeModel model = true)
    (ht : isThinkingCapableModel model = true)
    (hg : strIncludes (lowerStr model) "gemini-3" = false) :
    buildGenerationConfig model mt e = .ok
      ⟨match mt with
        | none => some 64000
        | some n =>
          if n ≠ 0 ∧ mapReasoningEffortToTokenBudget e < n then some n else some 64000,
       some (.budgetSnake true (mapReasoningEffortToTokenBudget e))⟩ := by
  unfold buildGenerationConfig
  simp only [ht, hg, hc, if_true, Bool.false_eq_true, if_false]
  rcases mt with _ | n
  · simp
  · by_cases h0 : n = 0
    · subst h0; simp
    · have hne : (n != 0) = true := by simpa using h0
      by_cases hle : n ≤ mapReasoningEffortToTokenBudget e
      · simp [hne, h0, hle, not_lt.mpr hle]
      · simp [hne, h0, hle, lt_of_not_le hle]

/-- Claim C7, amended: for every request whose model is Claude-family and
thinking-capable and whose lowercase does not contain `gemini-3`, the
orchestrator sets `thinkingConfig` to the snake-cased
`include_thoughts`/`thinking_budget` record with budget 8192 for low and
minimal, 16384 for medium, 32768 for high and 16000 when absent, and
forces `maxOutputTokens` to 64000 exactly when the client `max_tokens`
is absent (or zero, which JS treats as unset) or at most the budget,
leaving larger values unchanged. -/
theorem c7_claude_thinking_config (model : String) (mt : Option Int)
    (e : Option ReasoningEffort)
    (hc : isClaudeModel model = true)
    (ht : isThinkingCapableModel model = true)
    (hg : strIncludes (lowerStr model) "gemini-3" = false) :
    ∃ cfg, buildGenerationConfig model mt e = .ok cfg ∧
      cfg.thinkingConfig =
        some (.budgetSnake true (mapReasoningEffortToTokenBudget e)) ∧
      ((mt = none ∨ ∃ n, mt = some n ∧ n ≤ mapReasoningEffortToTokenBudget e) →
        cfg.maxOutputTokens = some 64000) ∧
      (∀ n, mt = some n → mapReasoningEffortToTokenBudget e < n →
        cfg.maxOutputTokens = some n) ∧
      mapReasoningEffortToTokenBudget (some .low) = 8192 ∧
      mapReasoningEffortToTokenBudget (some .minimal) = 8192 ∧
      mapReasoningEffortToTokenBudget (some .medium) = 16384 ∧
      mapReasoningEffortToTokenBudget (some .high) = 32768 ∧
      mapReasoningEffortToTokenBudget none = 16000 := by
  have hbpos : (0 : Int) < mapReasoningEffortToTokenBudget e := by
    rcases e with _ | e
    · decide
    · cases e <;> decide
  refine ⟨_, buildGenerationConfig_claude_eq model mt e hc ht hg,
    rfl, ?_, ?_, rfl, rfl, rfl, rfl, rfl⟩
  · intro h
    rcases mt with _ | n
    · rfl
    · rcases h with h | ⟨n', hn', hle⟩
      · exact absurd h (by simp)
      · obtain rfl : n = n' := Option.some.inj hn'
        have hni : ¬ (n ≠ 0 ∧ mapReasoningEffortToTokenBudget e < n) := by
          rintro ⟨_, hlt⟩; omega
        show (if n ≠ 0 ∧ mapReasoningEffortToTokenBudget e < n then some n
          else some (64000 : Int)) = some 64000
        exact if_neg hni
  · intro n hn hlt
    obtain rfl : mt = some n := hn
    have hpos : (n ≠ 0 ∧ mapReasoningEffortToTokenBudget e < n) := by
      refine ⟨by omega, hlt⟩
    show (if n ≠ 0 ∧ mapReasoningEffortToTokenBudget e < n then some n
      else some (64000 : Int)) = some n
    exact if_pos hpos

/-- Witness for the amended C7 at `claude-opus-4-5` with medium effort and
a client `max_tokens` below the 16384 budget: the config carries the
snake-cased thinking record and `maxOutputTokens` is forced to 64000. -/
theorem c7_claude_thinking_config_witness :
    ∃ cfg, buildGenerationConfig "claude-opus-4-5" (some 10000) (some .medium) = .ok cfg ∧
      cfg.thinkingConfig = some (.budgetSnake true 16384) ∧
      cfg.maxOutputTokens = some 64000 := by
  obtain ⟨cfg, h1, h2, h3, _⟩ :=
    c7_claude_thinking_config "claude-opus-4-5" (some 10000) (some .medium)
      (by decide) (by decide) (by decide)
  exact ⟨cfg, h1, h2, h3 (Or.inr ⟨10000, rfl, by decide⟩)⟩

set_option maxRecDepth 200000 in
/-- Claim C8 as stated is false: for the refresh token `t` the code's
device id is the 32-bit JS string hash `00000074` padded to 32 zeros,
while the hex-encoded 8-byte SHA-256 prefix of `t` is
`e3b98a4da31a127d`; the two disagree.  The final conjunct checks the
reference SHA-256 implementation against the full known digest of `t`. -/
theorem c8_counterexample :
    (fingerprintOf "t").deviceId = "00000074000000000000000000000000" ∧
    sha256DeviceIdClaim "t" = "e3b98a4da31a127d0000000000000000" ∧
    (fingerprintOf "t").deviceId ≠ sha256DeviceIdClaim "t" ∧
    sha256HexOfString "t" =
      "e3b98a4da31a127d4bde6e43033f66ba274cab0eb7eb1c70ec41402bf6273dd8" := by
  refine ⟨by decide, by decide, by decide, by decide⟩

/-- The 32-bit coercion lands in the signed 32-bit range. -/
theorem toInt32_bounds (x : Int) : -2 ^ 31 ≤ toInt32 x ∧ toInt32 x < 2 ^ 31 := by
  unfold toInt32
  have h1 : 0 ≤ (x + 2 ^ 31) % 2 ^ 32 := Int.emod_nonneg _ (by norm_num)
  have h2 : (x + 2 ^ 31) % 2 ^ 32 < 2 ^ 32 := Int.emod_lt_of_pos _ (by norm_num)
  omega

/-- The accumulated JS string hash stays in the signed 32-bit range. -/
theorem hashFold_bounds (l : List Char) :
    ∀ h : Int, -2 ^ 31 ≤ h → h < 2 ^ 31 →
      -2 ^ 31 ≤ l.foldl (fun h c => hashStep h c.toNat) h ∧
      l.foldl (fun h c => hashStep h c.toNat) h < 2 ^ 31 := by
  induction l with
  | nil => intro h h1 h2; exact ⟨h1, h2⟩
  | cons c l ih =>
      intro h h1 h2
      simp only [List.foldl_cons]
      have := toInt32_bounds (toInt32 (32 * h) - h + c.toNat)
      exact ih _ this.1 this.2

/-- Digit-count bound for the fueled hex printer. -/
theorem hexDigitsAux_length :
    ∀ fuel n (acc : List Char) k, n < 16 ^ k → k ≤ fuel →
      (hexDigitsAux fuel n acc).length ≤ k + acc.length := by
  intro fuel
  induction fuel with
  | zero => intro n acc k _ _; simp [hexDigitsAux]
  | succ fuel ih =>
      intro n acc k hk hf
      match n with
      | 0 =>
          cases k with
          | zero => simp [hexDigitsAux]
          | succ k => simp [hexDigitsAux]
      | m + 1 =>
          cases k with
          | zero => omega
          | succ k =>
              have hdiv : (m + 1) / 16 < 16 ^ k := by
                have h16 : (16 : Nat) ^ (k + 1) = 16 * 16 ^ k := by ring
                have hlt : (m + 1) < 16 * 16 ^ k := by omega
                exact Nat.div_lt_of_lt_mul hlt
              have := ih ((m + 1) / 16) (Nat.digitChar ((m + 1) % 16) :: acc) k hdiv
                (by omega)
              simp only [hexDigitsAux]
              simp at this ⊢
              omega

/-- The JS hex rendering of a value below `16 ^ 8` has at most 8
characters. -/
theorem natToHexStr_length_le (n : Nat) (h : n < 16 ^ 8) :
    (natToHexStr n).data.length ≤ 8 := by
  unfold natToHexStr
  by_cases h0 : n = 0
  · simp [h0]
  · simp only [h0, if_false]
    have := hexDigitsAux_length 16 n [] 8 h (by omega)
    simpa using this

/-- The emitted hash string has exactly 8 characters. -/
theorem hashString_length (input : String) : (hashString input).data.length = 8 := by
  unfold hashString strPadStart
  set h := input.data.foldl (fun h c => hashStep h c.toNat) 0 with hh
  have hb := hashFold_bounds input.data 0 (by norm_num) (by norm_num)
  rw [← hh] at hb
  have habs : h.natAbs < 16 ^ 8 := by
    have : (16 : Nat) ^ 8 = 2 ^ 32 := by norm_num
    rw [this]
    omega
  have hlen := natToHexStr_length_le h.natAbs habs
  have hsl : (natToHexStr h.natAbs).length = (natToHexStr h.natAbs).data.length := rfl
  simp
  omega

/-- Claim C8, amended: `getFingerprintHeaders` returns a stable pair
derived from the 32-bit accumulating JS string hash of the refresh token
(not a SHA-256 prefix): the quota user is `device-` followed by the
8-character lowercase hex hash, the device id is that hash right-padded
with zeros to exactly 32 characters, and — via the memoization cache,
modelled as an association list whose entries always store the derived
value — repeated calls with the same token return identical values. -/
theorem c8_fingerprint_characterization (cache : List (String × FingerprintHeaders))
    (tok : String)
    (hwf : ∀ kv ∈ cache, kv.2 = fingerprintOf kv.1) :
    (getFingerprintHeaders cache tok).1 = fingerprintOf tok ∧
    (∀ kv ∈ (getFingerprintHeaders cache tok).2, kv.2 = fingerprintOf kv.1) ∧
    (fingerprintOf tok).quotaUser = "device-" ++ hashString tok ∧
    (fingerprintOf tok).deviceId = strPadEnd (hashString tok) 32 '0' ∧
    (hashString tok).data.length = 8 ∧
    ((fingerprintOf tok).deviceId).data.length = 32 := by
  refine ⟨?_, ?_, rfl, rfl, hashString_length tok, ?_⟩
  · unfold getFingerprintHeaders
    cases hl : cache.lookup tok with
    | none => rfl
    | some v =>
        obtain ⟨l1, l2, rfl, _⟩ := List.lookup_eq_some_iff.mp hl
        exact hwf (tok, v) (by simp)
  · unfold getFingerprintHeaders
    cases hl : cache.lookup tok with
    | none =>
        intro kv hkv
        simp only [List.mem_append, List.mem_singleton] at hkv
        rcases hkv with hkv | hkv
        · exact hwf kv hkv
        · subst hkv; rfl
    | some v => exact hwf
  · show (strPadEnd (hashString tok) 32 '0').data.length = 32
    unfold strPadEnd
    have := hashString_length tok
    simp [this]

/-- Witness for the amended C8: a call against the empty cache followed by
a call against the updated cache both return the derived headers for the
token `t`. -/
theorem c8_fingerprint_witness :
    (getFingerprintHeaders [] "t").1 = fingerprintOf "t" ∧
    (getFingerprintHeaders (getFingerprintHeaders [] "t").2 "t").1 = fingerprintOf "t" := by
  have h1 := c8_fingerprint_characterization [] "t" (by intro kv hkv; cases hkv)
  have h2 := c8_fingerprint_characterization (getFingerprintHeaders [] "t").2 "t" h1.2.1
  exact ⟨h1.1, h2.1⟩

/-- A `Map.set` always makes the written binding visible to `Map.get`. -/
theorem assocSet_lookup_self {β : Type} (fs : List (String × β)) (k : String) (v : β) :
    (assocSet fs k v).lookup k = some v := by
  induction fs with
  | nil => simp [assocSet, List.lookup]
  | cons p t ih =>
      by_cases hp : p.1 == k
      · have : p.1 = k := by simpa using hp
        simp [assocSet, hp, List.lookup]
      · have hkp : (k == p.1) = false := by
          have : ¬ p.1 = k := by simpa using hp
          simpa using fun he => this he.symm
        simp only [assocSet, hp, Bool.false_eq_true, if_false]
        simpa [List.lookup, hkp] using ih

/-- Every binding of a `Map.set` result is the written binding or an
original one. -/
theorem assocSet_mem {β : Type} {fs : List (String × β)} {k : String} {v : β}
    {kv : String × β} (h : kv ∈ assocSet fs k v) : kv = (k, v) ∨ kv ∈ fs := by
  induction fs with
  | nil => simpa [assocSet] using h
  | cons p t ih =>
      by_cases hp : p.1 == k
      · simp only [assocSet, hp, if_true, List.mem_cons] at h
        rcases h with h | h
        · exact Or.inl h
        · exact Or.inr (List.mem_cons_of_mem p h)
      · simp only [assocSet, hp, Bool.false_eq_true, if_false, List.mem_cons] at h
        rcases h with h | h
        · exact Or.inr (h ▸ List.mem_cons_self p t)
        · rcases ih h with h | h
          · exact Or.inl h
          · exact Or.inr (List.mem_cons_of_mem p h)

/-- A syntactically valid UUID yields a synthesized id of the documented
`call_` + 24-hex shape. -/
theorem mkCallId_shape {u : String} (h : goodUuidStr u = true) :
    isCallIdShape (mkCallId u) = true := by
  unfold goodUuidStr at h
  unfold isCallIdShape mkCallId
  simp only [Bool.and_eq_true] at h ⊢
  set f := u.data.filter (fun c => c ≠ '-') with hf
  obtain ⟨hlen, hhex⟩ := h
  have hlen' : f.length = 32 := by simpa using hlen
  have htake : (f.take 24).length = 24 := by
    rw [List.length_take, hlen']
    omega
  have hdata : ("call_" ++ (⟨f.take 24⟩ : String)).data = "call_".data ++ f.take 24 := by
    simp [String.data_append]
  refine ⟨⟨?_, ?_⟩, ?_⟩
  · show (("call_" ++ ⟨f.take 24⟩ : String).data.length == 29) = true
    simp [hdata, htake]
  · show (("call_" ++ ⟨f.take 24⟩ : String).data.take 5 == "call_".data) = true
    rw [hdata]
    have h5 : "call_".data.length = 5 := by decide
    rw [← h5, List.take_left]
    simp
  · show (("call_" ++ ⟨f.take 24⟩ : String).data.drop 5).all isHexDigit = true
    rw [hdata]
    have h5 : "call_".data.length = 5 := by decide
    rw [← h5, List.drop_left]
    simp only [List.all_eq_true] at hhex ⊢
    intro c hc
    have hcf : c ∈ f := List.mem_of_mem_take hc
    exact hhex c hcf

/-- A shaped call id is nonempty. -/
theorem isCallIdShape_ne_empty {s : String} (h : isCallIdShape s = true) : s ≠ "" := by
  unfold isCallIdShape at h
  simp only [Bool.and_eq_true] at h
  intro he
  subst he
  simp at h

/-- Nonemptiness of a truthy string. -/
theorem strTruthy_ne_empty {o : Option String} {i : String}
    (h : strTruthy o = some i) : i ≠ "" := by
  rcases o with _ | s
  · simp [strTruthy] at h
  · by_cases hs : s = ""
    · simp [strTruthy, hs] at h
    · simp only [strTruthy, hs, if_false] at h
      obtain rfl := Option.some.inj h
      exact hs

/-- Ids found in a queue looked up from a `P`-respecting queue map
satisfy `P`. -/
theorem lookup_queue_ids {qs : List (String × List String)} {P : String → Prop}
    (hqs : ∀ kv ∈ qs, ∀ id ∈ kv.2, P id) {k : String} {q : List String}
    (hl : qs.lookup k = some q) : ∀ id ∈ q, P id := by
  obtain ⟨l1, l2, rfl, _⟩ := List.lookup_eq_some_iff.mp hl
  exact hqs (k, q) (by simp)

/-- Every id `processToolCalls` emits or queues satisfies `P`, provided
`P` holds of the client-supplied ids of the processed calls, of every
synthesizable id, and of every id already queued. -/
theorem processToolCalls_inv (jp : String → Option Json) (uuids : Nat → String)
    (P : String → Prop) (hsynth : ∀ n, P (mkCallId (uuids n))) :
    ∀ (calls : List OAIToolCall) (qs : List (String × List String)) (cnt : Nat),
      (∀ tc ∈ calls, ∀ i, strTruthy tc.id = some i → P i) →
      (∀ kv ∈ qs, ∀ id ∈ kv.2, P id) →
      (∀ p ∈ (processToolCalls jp uuids calls qs cnt).1,
        ∀ i n a sg, p = GPart.functionCall i n a sg → P i) ∧
      (∀ kv ∈ (processToolCalls jp uuids calls qs cnt).2.1, ∀ id ∈ kv.2, P id) := by
  intro calls
  induction calls with
  | nil =>
      intro qs cnt _ hqs
      exact ⟨by simp [processToolCalls], by simpa [processToolCalls] using hqs⟩
  | cons call rest ih =>
      intro qs cnt hcl hqs
      have hPid : ∀ (idCnt : String × Nat),
          idCnt = (match strTruthy call.id with
            | some i => (i, cnt)
            | none => (mkCallId (uuids cnt), cnt + 1)) → P idCnt.1 := by
        rintro idCnt rfl
        rcases hci : strTruthy call.id with _ | i
        · simpa [hci] using hsynth cnt
        · simpa [hci] using hcl call (by simp) i hci
      set callName := (strTruthy call.fnName).getD "unknown" with hcn
      set idCnt := (match strTruthy call.id with
        | some i => (i, cnt)
        | none => (mkCallId (uuids cnt), cnt + 1)) with hic
      have hP : P idCnt.1 := hPid idCnt hic
      set qs1 := assocSet qs callName (((qs.lookup callName).getD []) ++ [idCnt.1]) with hq1
      have hqs1 : ∀ kv ∈ qs1, ∀ id ∈ kv.2, P id := by
        intro kv hkv id hid
        rcases assocSet_mem hkv with hkv | hkv
        · subst hkv
          simp only [List.mem_append, List.mem_singleton] at hid
          rcases hid with hid | hid
          · rcases hlk : qs.lookup callName with _ | q
            · rw [hlk] at hid; simp at hid
            · rw [hlk] at hid
              exact lookup_queue_ids hqs hlk id (by simpa using hid)
          · exact hid ▸ hP
        · exact hqs kv hkv id hid
      have hrest := ih qs1 idCnt.2
        (fun tc htc => hcl tc (by simp [htc])) hqs1
      constructor
      · intro p hp i n a sg hpe
        rw [show processToolCalls jp uuids (call :: rest) qs cnt =
            (GPart.functionCall idCnt.1 callName
              (match jp ((strTruthy call.fnArgs).getD "{}") with
                | some j => j
                | none => Json.obj []) SKIP_THOUGHT_SIGNATURE ::
              (processToolCalls jp uuids rest qs1 idCnt.2).1,
             (processToolCalls jp uuids rest qs1 idCnt.2).2.1,
             (processToolCalls jp uuids rest qs1 idCnt.2).2.2) from rfl] at hp
        rcases List.mem_cons.mp hp with hp | hp
        · subst hpe
          injection hp with h1 _
          exact h1 ▸ hP
        · exact hrest.1 p hp i n a sg hpe
      · intro kv hkv id hid
        rw [show processToolCalls jp uuids (call :: rest) qs cnt =
            (GPart.functionCall idCnt.1 callName
              (match jp ((strTruthy call.fnArgs).getD "{}") with
                | some j => j
                | none => Json.obj []) SKIP_THOUGHT_SIGNATURE ::
              (processToolCalls jp uuids rest qs1 idCnt.2).1,
             (processToolCalls jp uuids rest qs1 idCnt.2).2.1,
             (processToolCalls jp uuids rest qs1 idCnt.2).2.2) from rfl] at hkv
        exact hrest.2 kv hkv id hid

/-- Parts of plain (non-tool-call) content are never function calls. -/
theorem plainParts_no_functionCall :
    ∀ content, ∀ p ∈ plainParts content, ∀ i n a sg,
      p ≠ GPart.functionCall i n a sg := by
  have hitems : ∀ l, ∀ p ∈ itemParts l, ∀ i n a sg,
      p ≠ GPart.functionCall i n a sg := by
    intro l
    induction l with
    | nil => simp [itemParts]
    | cons item rest ih =>
        intro p hp i n a sg
        simp only [itemParts, List.mem_append] at hp
        rcases hp with hp | hp
        · rcases item with t | u | _ <;> dsimp only at hp
          · rcases ht : strTruthy t with _ | s
            · rw [ht] at hp; simp at hp
            · rw [ht] at hp
              simp only [List.mem_singleton] at hp
              subst hp; intro he; cases he
          · rcases hu : strTruthy u with _ | url
            · rw [hu] at hp; simp at hp
            · rw [hu] at hp
              dsimp only at hp
              rcases hd : parseDataImageUrl url with _ | mp
              · rw [hd] at hp; simp at hp
              · rw [hd] at hp
                simp only [List.mem_singleton] at hp
                subst hp; intro he; cases he
          · simp at hp
        · exact ih p hp i n a sg
  intro content p hp i n a sg
  rcases content with s | l | _
  · simp only [plainParts, List.mem_singleton] at hp
    subst hp; intro he; cases he
  · exact hitems l p hp i n a sg
  · simp [plainParts] at hp

/-- One translator step preserves the id invariant. -/
theorem toGeminiStep_inv (jp : String → Option Json) (uuids : Nat → String)
    (P : String → Prop) (msg : OAIMsg) (st : TransState)
    (hsynth : ∀ n, P (mkCallId (uuids n)))
    (hclient : ∀ tc ∈ msg.tool_calls.getD [], ∀ i, strTruthy tc.id = some i → P i)
    (hst : StateIdsP P st) :
    StateIdsP P (toGeminiStep jp uuids st msg) := by
  unfold toGeminiStep
  by_cases h1 : msg.role = .system
  · simp only [h1, if_true]
    exact ⟨hst.1, hst.2⟩
  · simp only [h1, if_false]
    by_cases h2 : (msg.role = .assistant ∧ msg.tool_calls.getD [] ≠ [])
    · rw [if_pos h2]
      have hpc := processToolCalls_inv jp uuids P hsynth (msg.tool_calls.getD [])
        st.pendingCallIdsByName st.uuidCount hclient hst.2
      constructor
      · intro c hc p hp i n a sg hpe
        simp only [List.mem_append, List.mem_singleton] at hc
        rcases hc with hc | hc
        · exact hst.1 c hc p hp i n a sg hpe
        · subst hc
          simp only [List.mem_append] at hp
          rcases hp with hp | hp
          · exfalso
            rcases hmc : msg.content with s | l | _ <;> rw [hmc] at hp
            · by_cases hs : s = ""
              · simp [hs] at hp
              · simp only [hs, if_pos, ne_eq, not_false_iff, if_true,
                  List.mem_singleton] at hp
                subst hpe; cases hp
            · simp at hp
            · simp at hp
          · exact hpc.1 p hp i n a sg hpe
      · exact hpc.2
    · rw [if_neg h2]
      by_cases h3 : msg.role = .tool
      · simp only [h3, if_true]
        rcases hid : strTruthy msg.tool_call_id with _ | i
        · rcases hq : st.pendingCallIdsByName.lookup
              ((strTruthy msg.name).getD "unknown") with _ | q
          · simp only [hid, hq]
            constructor
            · intro c hc p hp i n a sg hpe
              simp only [List.mem_append, List.mem_singleton] at hc
              rcases hc with hc | hc
              · exact hst.1 c hc p hp i n a sg hpe
              · subst hc
                simp only [List.mem_singleton] at hp
                subst hpe; cases hp
            · exact hst.2
          · rcases q with _ | ⟨h0, t⟩
            · simp only [hid, hq]
              constructor
              · intro c hc p hp i n a sg hpe
                simp only [List.mem_append, List.mem_singleton] at hc
                rcases hc with hc | hc
                · exact hst.1 c hc p hp i n a sg hpe
                · subst hc
                  simp only [List.mem_singleton] at hp
                  subst hpe; cases hp
              · exact hst.2
            · simp only [hid, hq]
              constructor
              · intro c hc p hp i n a sg hpe
                simp only [List.mem_append, List.mem_singleton] at hc
                rcases hc with hc | hc
                · exact hst.1 c hc p hp i n a sg hpe
                · subst hc
                  simp only [List.mem_singleton] at hp
                  subst hpe; cases hp
              · intro kv hkv id hid'
                rcases assocSet_mem hkv with hkv | hkv
                · subst hkv
                  exact lookup_queue_ids hst.2 hq id (by simp [hid'])
                · exact hst.2 kv hkv id hid'
        · simp only [hid]
          constructor
          · intro c hc p hp i n a sg hpe
            simp only [List.mem_append, List.mem_singleton] at hc
            rcases hc with hc | hc
            · exact hst.1 c hc p hp i n a sg hpe
            · subst hc
              simp only [List.mem_singleton] at hp
              subst hpe; cases hp
          · exact hst.2
      · simp only [h3, if_false]
        by_cases h4 : plainParts msg.content ≠ []
        · rw [if_pos h4]
          constructor
          · intro c hc p hp i n a sg hpe
            simp only [List.mem_append, List.mem_singleton] at hc
            rcases hc with hc | hc
            · exact hst.1 c hc p hp i n a sg hpe
            · subst hc
              exact absurd hpe (plainParts_no_functionCall msg.content p hp i n a sg)
          · exact hst.2
        · rw [if_neg h4]
          exact ⟨hst.1, hst.2⟩

/-- The id invariant holds after folding the translator over any message
list whose client-supplied ids satisfy `P`. -/
theorem foldSteps_inv (jp : String → Option Json) (uuids : Nat → String)
    (P : String → Prop) (hsynth : ∀ n, P (mkCallId (uuids n))) :
    ∀ (msgs : List OAIMsg) (st : TransState),
      (∀ m ∈ msgs, ∀ tc ∈ m.tool_calls.getD [], ∀ i, strTruthy tc.id = some i → P i) →
      StateIdsP P st →
      StateIdsP P (msgs.foldl (toGeminiStep jp uuids) st) := by
  intro msgs
  induction msgs with
  | nil => intro st _ hst; simpa using hst
  | cons m rest ih =>
      intro st hcl hst
      simp only [List.foldl_cons]
      exact ih _ (fun m' hm' => hcl m' (by simp [hm']))
        (toGeminiStep_inv jp uuids P m st hsynth (hcl m (by simp)) hst)

/-- Tool messages append exactly one user content whose function-response
id follows the spec's resolution rule. -/
theorem toGeminiStep_tool_eq (jp : String → Option Json) (uuids : Nat → String)
    (st : TransState) (msg : OAIMsg) (h : msg.role = .tool) :
    (toGeminiStep jp uuids st msg).contents = st.contents ++
      [⟨"user", [GPart.functionResponse (toolIdResolutionSpec st msg)
        ((strTruthy msg.name).getD "unknown") msg.content]⟩] := by
  have h1 : ¬ msg.role = .system := by rw [h]; intro hx; cases hx
  have h2 : ¬ (msg.role = .assistant ∧ msg.tool_calls.getD [] ≠ []) := by
    rw [h]; rintro ⟨hx, _⟩; cases hx
  unfold toGeminiStep
  rw [if_neg h1, if_neg h2, if_pos h]
  unfold toolIdResolutionSpec
  rcases hid : strTruthy msg.tool_call_id with _ | i
  · rcases hq : st.pendingCallIdsByName.lookup
        ((strTruthy msg.name).getD "unknown") with _ | q
    · simp [hid, hq]
    · rcases q with _ | ⟨h0, t⟩
      · simp [hid, hq]
      · simp [hid, hq]
  · simp [hid]

/-- The adjacent assistant-call/tool-response binding scenario: when the
queue for function name `f` is empty, an assistant message with a single
call named `f` followed by a tool message for `f` without `tool_call_id`
produces a function response carrying exactly the call's assigned id. -/
theorem translator_binding (jp : String → Option Json) (uuids : Nat → String)
    (pre : List OAIMsg) (acall tmsg : OAIMsg) (tc : OAIToolCall) (f : String)
    (st : TransState) (aid : String)
    (ha : acall.role = .assistant) (hcalls : acall.tool_calls = some [tc])
    (hf : (strTruthy tc.fnName).getD "unknown" = f)
    (ht : tmsg.role = .tool) (htc : strTruthy tmsg.tool_call_id = none)
    (htn : (strTruthy tmsg.name).getD "unknown" = f)
    (hst : st = pre.foldl (toGeminiStep jp uuids) initTransState)
    (hq : st.pendingCallIdsByName.lookup f = none ∨
      st.pendingCallIdsByName.lookup f = some [])
    (haid : aid = (match strTruthy tc.id with
      | some i => i
      | none => mkCallId (uuids st.uuidCount))) :
    ∃ args,
      (toGeminiFormat jp uuids (pre ++ [acall, tmsg])).2 =
        st.contents ++
          [⟨"model", (match acall.content with
              | .str s => if s ≠ "" then [GPart.textPart s] else []
              | _ => []) ++ [GPart.functionCall aid f args SKIP_THOUGHT_SIGNATURE]⟩,
           ⟨"user", [GPart.functionResponse aid f tmsg.content]⟩] := by
  refine ⟨match jp ((strTruthy tc.fnArgs).getD "{}") with
    | some j => j
    | none => Json.obj [], ?_⟩
  unfold toGeminiFormat
  rw [List.foldl_append, ← hst]
  simp only [List.foldl_cons, List.foldl_nil]
  have hnq : ((st.pendingCallIdsByName.lookup f).getD []) = [] := by
    rcases hq with hq | hq <;> simp [hq]
  have hpc : processToolCalls jp uuids [tc] st.pendingCallIdsByName st.uuidCount =
      ([GPart.functionCall aid f (match jp ((strTruthy tc.fnArgs).getD "{}") with
          | some j => j
          | none => Json.obj []) SKIP_THOUGHT_SIGNATURE],
       assocSet st.pendingCallIdsByName f [aid],
       match strTruthy tc.id with
         | some _ => st.uuidCount
         | none => st.uuidCount + 1) := by
    rcases hci : strTruthy tc.id with _ | i
    · simp only [processToolCalls, hci, hf, hnq, List.nil_append]
      rw [haid]
      simp [hci]
    · simp only [processToolCalls, hci, hf, hnq, List.nil_append]
      rw [haid]
      simp [hci]
  have hna : ¬ acall.role = .system := by rw [ha]; intro hx; cases hx
  have hya : acall.role = .assistant ∧ acall.tool_calls.getD [] ≠ [] := by
    refine ⟨ha, ?_⟩
    rw [hcalls]
    simp
  have hstep1 : toGeminiStep jp uuids st acall =
      { st with
          contents := st.contents ++ [⟨"model", (match acall.content with
              | .str s => if s ≠ "" then [GPart.textPart s] else []
              | _ => []) ++ [GPart.functionCall aid f (match jp ((strTruthy tc.fnArgs).getD "{}") with
                | some j => j
                | none => Json.obj []) SKIP_THOUGHT_SIGNATURE]⟩],
          pendingCallIdsByName := assocSet st.pendingCallIdsByName f [aid],
          uuidCount := match strTruthy tc.id with
            | some _ => st.uuidCount
            | none => st.uuidCount + 1 } := by
    unfold toGeminiStep
    rw [if_neg hna, if_pos hya]
    rw [show acall.tool_calls.getD [] = [tc] from by rw [hcalls]; rfl]
    rw [hpc]
  rw [hstep1]
  rw [toGeminiStep_tool_eq jp uuids _ tmsg ht]
  have hres : toolIdResolutionSpec
      { st with
          contents := st.contents ++ [⟨"model", (match acall.content with
              | .str s => if s ≠ "" then [GPart.textPart s] else []
              | _ => []) ++ [GPart.functionCall aid f (match jp ((strTruthy tc.fnArgs).getD "{}") with
                | some j => j
                | none => Json.obj []) SKIP_THOUGHT_SIGNATURE]⟩],
          pendingCallIdsByName := assocSet st.pendingCallIdsByName f [aid],
          uuidCount := match strTruthy tc.id with
            | some _ => st.uuidCount
            | none => st.uuidCount + 1 } tmsg = aid := by
    unfold toolIdResolutionSpec
    rw [htc, htn]
    have := assocSet_lookup_self st.pendingCallIdsByName f [aid]
    simp only [this]
  rw [hres, htn]
  simp

/-- Claim C2: in `toGeminiFormat` output (i) every function-call part of
an assistant message carries a non-empty id — the client's truthy id or a
synthesized `call_` + 24-hex id; (ii) every tool message resolves its
function-response id by the spec's rule (client `tool_call_id` wins, else
the oldest queued id for the function name, else `unknown`); (iii) in
particular a tool message without `tool_call_id` directly following an
assistant tool-call of the same function name (with no older pending id)
receives exactly that call's id. -/
theorem c2_translator_id_binding (jp : String → Option Json) (uuids : Nat → String)
    (hu : ∀ n, goodUuidStr (uuids n) = true) :
    (∀ msgs, ∀ c ∈ (toGeminiFormat jp uuids msgs).2, ∀ p ∈ c.parts,
      ∀ i n a sg, p = GPart.functionCall i n a sg →
        i ≠ "" ∧ (isCallIdShape i = true ∨ ClientId msgs i)) ∧
    (∀ st msg, msg.role = .tool →
      (toGeminiStep jp uuids st msg).contents = st.contents ++
        [⟨"user", [GPart.functionResponse (toolIdResolutionSpec st msg)
          ((strTruthy msg.name).getD "unknown") msg.content]⟩]) ∧
    (∀ pre acall tmsg tc f st aid,
      acall.role = .assistant → acall.tool_calls = some [tc] →
      (strTruthy tc.fnName).getD "unknown" = f →
      tmsg.role = .tool → strTruthy tmsg.tool_call_id = none →
      (strTruthy tmsg.name).getD "unknown" = f →
      st = pre.foldl (toGeminiStep jp uuids) initTransState →
      (st.pendingCallIdsByName.lookup f = none ∨
        st.pendingCallIdsByName.lookup f = some []) →
      aid = (match strTruthy tc.id with
        | some i => i
        | none => mkCallId (uuids st.uuidCount)) →
      ∃ args,
        (toGeminiFormat jp uuids (pre ++ [acall, tmsg])).2 =
          st.contents ++
            [⟨"model", (match acall.content with
                | .str s => if s ≠ "" then [GPart.textPart s] else []
                | _ => []) ++ [GPart.functionCall aid f args SKIP_THOUGHT_SIGNATURE]⟩,
             ⟨"user", [GPart.functionResponse aid f tmsg.content]⟩]) := by
  refine ⟨?_, toGeminiStep_tool_eq jp uuids, translator_binding jp uuids⟩
  intro msgs c hc p hp i n a sg hpe
  have hinv := foldSteps_inv jp uuids
    (fun id => isCallIdShape id = true ∨ ClientId msgs id)
    (fun k => Or.inl (mkCallId_shape (hu k)))
    msgs initTransState
    (fun m hm tc htc ii hii => Or.inr ⟨m, hm, tc, htc, hii⟩)
    ⟨by intro c hc; simp [initTransState] at hc,
     by intro kv hkv; simp [initTransState] at hkv⟩
  have hP := hinv.1 c hc p hp i n a sg hpe
  refine ⟨?_, hP⟩
  rcases hP with hP | hP
  · exact isCallIdShape_ne_empty hP
  · obtain ⟨m, _, tc, _, hci⟩ := hP
    exact strTruthy_ne_empty hci

/-- Witness for C2: a concrete assistant message with one id-less call to
`get_weather` yields a function-call part whose synthesized id is
`call_` plus 24 hex characters, and the theorem instance certifies it is
non-empty and well shaped. -/
theorem c2_translator_id_binding_witness :
    "call_00112233445566778899aabb" ≠ "" ∧
    (isCallIdShape "call_00112233445566778899aabb" = true ∨
      ClientId [⟨.assistant, .nullContent, none,
        some [⟨none, some "get_weather", none⟩], none⟩]
        "call_00112233445566778899aabb") := by
  exact (c2_translator_id_binding (fun _ => none)
      (fun _ => "00112233445566778899aabbccddeeff")
      (fun _ => (by decide :
        goodUuidStr "00112233445566778899aabbccddeeff" = true))).1
    [⟨.assistant, .nullContent, none, some [⟨none, some "get_weather", none⟩], none⟩]
    ⟨"model", [.functionCall "call_00112233445566778899aabb" "get_weather"
      (Json.obj []) SKIP_THOUGHT_SIGNATURE]⟩
    (by decide)
    (.functionCall "call_00112233445566778899aabb" "get_weather"
      (Json.obj []) SKIP_THOUGHT_SIGNATURE)
    (by decide)
    "call_00112233445566778899aabb" "get_weather" (Json.obj []) SKIP_THOUGHT_SIGNATURE
    rfl

/-- Chunks emitted for a single part never carry a finish reason. -/
theorem processPart_finish (keep : Bool) (uuids : Nat → String) (i : Nat)
    (p : Json) (ctx : StreamContext) :
    ∀ c ∈ (processPart keep uuids i p ctx).2, finishReason c = none := by
  intro c hc
  unfold processPart at hc
  by_cases hskip : (Json.otruthy (Json.jget p "text") = true ∧
      Json.jget p "thought" = some (Json.bool true) ∧ keep = false)
  · rw [if_pos hskip] at hc
    simp at hc
  · rw [if_neg hskip] at hc
    have htext : ∀ c' ∈ (match Json.jget p "text" with
        | some t => if Json.truthy t then [OutChunk.contentDelta t] else []
        | none => ([] : List OutChunk)), finishReason c' = none := by
      intro c' hc'
      rcases hpt : Json.jget p "text" with _ | t
      · rw [hpt] at hc'
        simp at hc'
      · rw [hpt] at hc'
        dsimp only at hc'
        by_cases ht : Json.truthy t
        · rw [if_pos ht] at hc'
          simp only [List.mem_singleton] at hc'
          subst hc'
          rfl
        · rw [if_neg ht] at hc'
          simp at hc'
    rcases hfc : Json.jget p "functionCall" with _ | fc
    · rw [hfc] at hc
      exact htext c hc
    · rw [hfc] at hc
      dsimp only at hc
      by_cases htr : Json.truthy fc
      · rw [if_pos htr] at hc
        by_cases hmem : i ∈ ctx.emittedFunctionCalls
        · rw [if_pos hmem] at hc
          exact htext c hc
        · rw [if_neg hmem] at hc
          simp only [List.mem_append, List.mem_singleton] at hc
          rcases hc with hc | hc
          · exact htext c hc
          · subst hc
            rfl
      · rw [if_neg htr] at hc
        exact htext c hc

/-- Chunks emitted by the part loop never carry a finish reason. -/
theorem processParts_finish (keep : Bool) (uuids : Nat → String) :
    ∀ ps i ctx, ∀ c ∈ (processParts keep uuids i ps ctx).2, finishReason c = none := by
  intro ps
  induction ps with
  | nil => intro i ctx c hc; simp [processParts] at hc
  | cons p rest ih =>
      intro i ctx c hc
      rw [show processParts keep uuids i (p :: rest) ctx =
        ((processParts keep uuids (i + 1) rest (processPart keep uuids i p ctx).1).1,
         (processPart keep uuids i p ctx).2 ++
           (processParts keep uuids (i + 1) rest (processPart keep uuids i p ctx).1).2)
        from rfl] at hc
      simp only [List.mem_append] at hc
      rcases hc with hc | hc
      · exact processPart_finish keep uuids i p ctx c hc
      · exact ih (i + 1) _ c hc

/-- Chunks emitted for one upstream frame never carry a finish reason. -/
theorem processGeminiChunk_finish (keep : Bool) (uuids : Nat → String)
    (data : Json) (ctx : StreamContext) :
    ∀ c ∈ (processGeminiChunk keep uuids data ctx).2, finishReason c = none := by
  intro c hc
  unfold processGeminiChunk at hc
  rcases hp : getPartsValue data with _ | parts
  · rw [hp] at hc; simp at hc
  · rw [hp] at hc
    dsimp only at hc
    by_cases ht : Json.truthy parts
    · rw [if_pos ht] at hc
      exact processParts_finish keep uuids (partsElems parts) 0 ctx c hc
    · rw [if_neg ht] at hc
      simp at hc

/-- Chunks emitted by the frame-sequence fold never carry a finish
reason. -/
theorem processChunks_finish (keep : Bool) (uuids : Nat → String) :
    ∀ cs ctx, ∀ c ∈ (processChunks keep uuids cs ctx).2, finishReason c = none := by
  intro cs
  induction cs with
  | nil => intro ctx c hc; simp [processChunks] at hc
  | cons d rest ih =>
      intro ctx c hc
      rw [show processChunks keep uuids (d :: rest) ctx =
        ((processChunks keep uuids rest (processGeminiChunk keep uuids d ctx).1).1,
         (processGeminiChunk keep uuids d ctx).2 ++
           (processChunks keep uuids rest (processGeminiChunk keep uuids d ctx).1).2)
        from rfl] at hc
      simp only [List.mem_append] at hc
      rcases hc with hc | hc
      · exact processGeminiChunk_finish keep uuids d ctx c hc
      · exact ih _ c hc

/-- Chunks emitted for one SSE line never carry a finish reason. -/
theorem processLine_finish (parse : String → Option Json) (keep : Bool)
    (uuids : Nat → String) (line : String) (ctx : StreamContext) :
    ∀ c ∈ (processLine parse keep uuids line ctx).2, finishReason c = none := by
  intro c hc
  unfold processLine at hc
  by_cases h1 : (line = "" ∨ ¬ strStartsWith line "data:" = true)
  · rw [if_pos h1] at hc; simp at hc
  · rw [if_neg h1] at hc
    by_cases h2 : (strTrim (strDrop line 5) = "" ∨ strTrim (strDrop line 5) = "[DONE]")
    · rw [if_pos h2] at hc; simp at hc
    · rw [if_neg h2] at hc
      rcases hp : parse (strTrim (strDrop line 5)) with _ | d
      · rw [hp] at hc; simp at hc
      · rw [hp] at hc
        exact processGeminiChunk_finish keep uuids d ctx c hc

/-- The line fold inside the read loop preserves the all-null-finish
invariant of the accumulated outputs. -/
theorem foldLines_finish (parse : String → Option Json) (keep : Bool)
    (uuids : Nat → String) :
    ∀ (lines : List String) (start : StreamContext × List OutChunk),
      (∀ c ∈ start.2, finishReason c = none) →
      ∀ c ∈ (lines.foldl
        (fun (a : StreamContext × List OutChunk) ln =>
          let r := processLine parse keep uuids (strTrim ln) a.1
          (r.1, a.2 ++ r.2)) start).2, finishReason c = none := by
  intro lines
  induction lines with
  | nil => intro start h c hc; exact h c hc
  | cons ln rest ih =>
      intro start h c hc
      simp only [List.foldl_cons] at hc
      refine ih _ ?_ c hc
      intro c' hc'
      simp only [List.mem_append] at hc'
      rcases hc' with hc' | hc'
      · exact h c' hc'
      · exact processLine_finish parse keep uuids (strTrim ln) start.1 c' hc'

/-- The read loop preserves the all-null-finish invariant. -/
theorem transformReads_finish (parse : String → Option Json) (keep : Bool)
    (uuids : Nat → String) :
    ∀ (reads : List String) (acc : TransformAcc),
      (∀ c ∈ acc.outs, finishReason c = none) →
      ∀ c ∈ (reads.foldl (transformRead parse keep uuids) acc).outs,
        finishReason c = none := by
  intro reads
  induction reads with
  | nil => intro acc h c hc; exact h c hc
  | cons chunk rest ih =>
      intro acc h c hc
      simp only [List.foldl_cons] at hc
      refine ih _ ?_ c hc
      intro c' hc'
      unfold transformRead at hc'
      exact foldLines_finish parse keep uuids _ _ h c' hc'

/-- Shape of the clean-path ending: the accumulated outputs, the chunks
from the remainder flush (all with null finish reason), then the single
stop chunk. -/
theorem transformEnd_shape (parse : String → Option Json) (keep : Bool)
    (uuids : Nat → String) (acc : TransformAcc) :
    ∃ mid, transformEnd parse keep uuids acc =
      acc.outs ++ mid ++ [OutChunk.stopChunk] ∧
      ∀ c ∈ mid, finishReason c = none := by
  unfold transformEnd
  by_cases h1 : strTrim acc.buffer ≠ ""
  · by_cases h2 : strStartsWith (strTrim acc.buffer) "data:" = true
    · refine ⟨(processLine parse keep uuids (strTrim acc.buffer) acc.ctx).2, ?_, ?_⟩
      · simp only [if_pos h1, if_pos h2]
      · exact processLine_finish parse keep uuids (strTrim acc.buffer) acc.ctx
    · by_cases h3 : (strStartsWith (strTrim acc.buffer) "[" = true ∨
          strStartsWith (strTrim acc.buffer) "\x7b" = true)
      · refine ⟨(match parse (strTrim acc.buffer) with
            | some j => processChunks keep uuids (match j with
                | Json.arr xs => xs
                | other => [other]) acc.ctx
            | none => (acc.ctx, [])).2, ?_, ?_⟩
        · simp only [if_pos h1, if_neg h2, if_pos h3]
        · intro c hc
          rcases hp : parse (strTrim acc.buffer) with _ | j
          · rw [hp] at hc
            simp at hc
          · rw [hp] at hc
            exact processChunks_finish keep uuids _ acc.ctx c hc
      · refine ⟨[], ?_, by simp⟩
        simp only [if_pos h1, if_neg h2, if_neg h3]
  · refine ⟨[], ?_, by simp⟩
    simp only [if_neg h1]

/-- Decomposition of the transformer output: chunks without finish reason
followed by exactly one terminal chunk carrying `finish_reason: "stop"` —
the stop chunk on the clean path, the error chunk on the error path. -/
theorem transform_shape (parse : String → Option Json) (keep : Bool)
    (uuids : Nat → String) (reads : List String) (outcome : Option String) :
    ∃ pre last, transformGeminiToOpenAIStream parse keep uuids reads outcome =
      pre ++ [last] ∧
      (∀ c ∈ pre, finishReason c = none) ∧
      finishReason last = some "stop" ∧
      (outcome = none → last = OutChunk.stopChunk) ∧
      (∀ msg, outcome = some msg →
        last = OutChunk.errorStop ("\n\nStream error: " ++ msg)) := by
  have hin : ∀ c ∈ (reads.foldl (transformRead parse keep uuids) initTransformAcc).outs,
      finishReason c = none := by
    refine transformReads_finish parse keep uuids reads initTransformAcc ?_
    intro c hc
    simp [initTransformAcc] at hc
  rcases outcome with _ | msg
  · have hdef : transformGeminiToOpenAIStream parse keep uuids reads none =
        transformEnd parse keep uuids
          (reads.foldl (transformRead parse keep uuids) initTransformAcc) := rfl
    obtain ⟨mid, heq, hmid⟩ := transformEnd_shape parse keep uuids
      (reads.foldl (transformRead parse keep uuids) initTransformAcc)
    refine ⟨(reads.foldl (transformRead parse keep uuids) initTransformAcc).outs ++ mid,
      OutChunk.stopChunk, ?_, ?_, ?_, ?_, ?_⟩
    · rw [hdef, heq, List.append_assoc]
    · intro c hc
      simp only [List.mem_append] at hc
      rcases hc with hc | hc
      · exact hin c hc
      · exact hmid c hc
    · rfl
    · intro _
      rfl
    · intro msg hmsg
      exact absurd hmsg (by simp)
  · have hdef : transformGeminiToOpenAIStream parse keep uuids reads (some msg) =
        (reads.foldl (transformRead parse keep uuids) initTransformAcc).outs ++
          [OutChunk.errorStop ("\n\nStream error: " ++ msg)] := rfl
    refine ⟨(reads.foldl (transformRead parse keep uuids) initTransformAcc).outs,
      OutChunk.errorStop ("\n\nStream error: " ++ msg), hdef, hin, ?_, ?_, ?_⟩
    · rfl
    · intro h
      exact absurd h (by simp)
    · intro msg' hmsg'
      obtain rfl := Option.some.inj hmsg'
      rfl

/-- Claim C3: the transformer output contains exactly one chunk with a
finish reason; it is `"stop"` and comes last — the appended stop chunk on
the clean path, the `Stream error` chunk alone on the error path — and
the client SSE response ends with exactly one `[DONE]` terminator frame
after all data frames. -/
theorem c3_stream_termination (parse : String → Option Json) (keep : Bool)
    (uuids : Nat → String) (reads : List String) (outcome : Option String) :
    ((transformGeminiToOpenAIStream parse keep uuids reads outcome).filter
      (fun c => (finishReason c).isSome)).length = 1 ∧
    (∀ c ∈ (transformGeminiToOpenAIStream parse keep uuids reads outcome).dropLast,
      finishReason c = none) ∧
    (∃ last, (transformGeminiToOpenAIStream parse keep uuids reads outcome).getLast? =
      some last ∧ finishReason last = some "stop") ∧
    (outcome = none →
      (transformGeminiToOpenAIStream parse keep uuids reads outcome).getLast? =
        some OutChunk.stopChunk) ∧
    (∀ msg, outcome = some msg →
      (transformGeminiToOpenAIStream parse keep uuids reads outcome).getLast? =
        some (OutChunk.errorStop ("\n\nStream error: " ++ msg))) ∧
    ((clientSSEFrames (transformGeminiToOpenAIStream parse keep uuids reads outcome)).filter
      (fun f => match f with | SSEFrame.doneFrame => true | _ => false)).length = 1 ∧
    (clientSSEFrames (transformGeminiToOpenAIStream parse keep uuids reads outcome)).getLast? =
      some SSEFrame.doneFrame := by
  obtain ⟨pre, last, heq, hpre, hlast, hnone, herr⟩ :=
    transform_shape parse keep uuids reads outcome
  have hfilter : pre.filter (fun c => (finishReason c).isSome) = [] := by
    rw [List.filter_eq_nil_iff]
    intro c hc
    simp [hpre c hc]
  refine ⟨?_, ?_, ?_, ?_, ?_, ?_, ?_⟩
  · rw [heq, List.filter_append, hfilter, List.nil_append]
    simp [hlast]
  · rw [heq, List.dropLast_concat]
    exact hpre
  · rw [heq, List.getLast?_concat]
    exact ⟨last, rfl, hlast⟩
  · intro h
    rw [heq, List.getLast?_concat, hnone h]
  · intro msg h
    rw [heq, List.getLast?_concat, herr msg h]
  · unfold clientSSEFrames
    rw [List.filter_append]
    have hmap : ((transformGeminiToOpenAIStream parse keep uuids reads outcome).map
        SSEFrame.dataFrame).filter
        (fun f => match f with | SSEFrame.doneFrame => true | _ => false) = [] := by
      rw [List.filter_eq_nil_iff]
      intro f hf
      simp only [List.mem_map] at hf
      obtain ⟨x, _, rfl⟩ := hf
      simp
    rw [hmap, List.nil_append]
    rfl
  · unfold clientSSEFrames
    rw [List.getLast?_concat]

/-- Witness for C3: concrete clean and erroring streams end in the stop
chunk and the error-stop chunk respectively, and both SSE framings end in
a single `[DONE]`. -/
theorem c3_stream_termination_witness :
    (transformGeminiToOpenAIStream (fun _ => none) false (fun _ => "")
      ["data: x\n"] none).getLast? = some OutChunk.stopChunk ∧
    (transformGeminiToOpenAIStream (fun _ => none) false (fun _ => "")
      ["data: x\n"] (some "boom")).getLast? =
      some (OutChunk.errorStop ("\n\nStream error: " ++ "boom")) ∧
    (clientSSEFrames (transformGeminiToOpenAIStream (fun _ => none) false (fun _ => "")
      ["data: x\n"] none)).getLast? = some SSEFrame.doneFrame := by
  refine ⟨?_, ?_, ?_⟩
  · exact (c3_stream_termination (fun _ => none) false (fun _ => "")
      ["data: x\n"] none).2.2.2.1 rfl
  · exact (c3_stream_termination (fun _ => none) false (fun _ => "")
      ["data: x\n"] (some "boom")).2.2.2.2.1 "boom" rfl
  · exact (c3_stream_termination (fun _ => none) false (fun _ => "")
      ["data: x\n"] none).2.2.2.2.2.2

/-- Text-only outputs contain no tool-call chunk. -/
theorem countToolCalls_textOut (o : Option Json) :
    countToolCalls (match o with
      | some t => if Json.truthy t then [OutChunk.contentDelta t] else []
      | none => []) = 0 := by
  rcases o with _ | t
  · rfl
  · dsimp only
    by_cases ht : Json.truthy t
    · simp [ht, countToolCalls]
    · simp [ht, countToolCalls]

/-- Tool-call counting distributes over concatenation. -/
theorem countToolCalls_append (a b : List OutChunk) :
    countToolCalls (a ++ b) = countToolCalls a + countToolCalls b := by
  simp [countToolCalls, List.filter_append]

/-- Behaviour of a single loop iteration on the function-call machinery:
the emitted-set gains the position exactly when the part emits a function
call, and the index advances and one tool-call chunk is emitted exactly
when additionally the position is new. -/
theorem processPart_fc (keep : Bool) (uuids : Nat → String) (i : Nat) (p : Json)
    (ctx : StreamContext) :
    ((processPart keep uuids i p ctx).1.emittedFunctionCalls =
      if partEmitsFC keep p then insert i ctx.emittedFunctionCalls
      else ctx.emittedFunctionCalls) ∧
    ((processPart keep uuids i p ctx).1.toolCallIndex =
      if partEmitsFC keep p = true ∧ i ∉ ctx.emittedFunctionCalls
      then ctx.toolCallIndex + 1 else ctx.toolCallIndex) ∧
    (countToolCalls (processPart keep uuids i p ctx).2 =
      if partEmitsFC keep p = true ∧ i ∉ ctx.emittedFunctionCalls then 1 else 0) := by
  unfold processPart
  by_cases hskip : (Json.otruthy (Json.jget p "text") = true ∧
      Json.jget p "thought" = some (Json.bool true) ∧ keep = false)
  · have hpe : partEmitsFC keep p = false := by
      obtain ⟨h1, h2, h3⟩ := hskip
      simp [partEmitsFC, h1, h2, h3]
    rw [if_pos hskip]
    simp [hpe, countToolCalls]
  · rw [if_neg hskip]
    rcases hfc : Json.jget p "functionCall" with _ | fc
    · have hpe : partEmitsFC keep p = false := by
        simp [partEmitsFC, hfc, Json.otruthy]
      simp [hpe, countToolCalls_textOut]
    · dsimp only
      by_cases htr : Json.truthy fc = true
      · have hb : (Json.otruthy (Json.jget p "text") &&
            decide (Json.jget p "thought" = some (Json.bool true)) && !keep) = false := by
          by_cases hA : Json.otruthy (Json.jget p "text") = true
          · by_cases hB : Json.jget p "thought" = some (Json.bool true)
            · cases hk : keep
              · exact absurd ⟨hA, hB, hk⟩ hskip
              · simp
            · simp [hB]
          · rw [Bool.not_eq_true] at hA
            simp [hA]
        have hpe : partEmitsFC keep p = true := by
          unfold partEmitsFC
          rw [hfc, hb]
          simp [Json.otruthy, htr]
        rw [if_pos htr]
        by_cases hmem : i ∈ ctx.emittedFunctionCalls
        · rw [if_pos hmem]
          have : insert i ctx.emittedFunctionCalls = ctx.emittedFunctionCalls :=
            Finset.insert_eq_self.mpr hmem
          simp [hpe, hmem, this, countToolCalls_textOut]
        · rw [if_neg hmem]
          refine ⟨by simp [hpe], by simp [hpe, hmem], ?_⟩
          rw [countToolCalls_append, countToolCalls_textOut]
          simp [hpe, hmem, countToolCalls]
      · have hpe : partEmitsFC keep p = false := by
          simp only [partEmitsFC, hfc, Json.otruthy]
          simp only [Bool.not_eq_true] at htr
          simp [htr]
        rw [if_neg htr]
        simp [hpe, countToolCalls_textOut]

/-- Cardinality of the singleton-or-empty contribution of one position. -/
theorem card_fc_adjust (pe : Bool) (i : Nat) (S : Finset Nat) :
    ((if pe then ({i} : Finset Nat) else ∅) \ S).card =
      if pe = true ∧ i ∉ S then 1 else 0 := by
  cases pe
  · simp
  · by_cases hm : i ∈ S
    · have : ({i} : Finset Nat) \ S = ∅ := by
        rw [Finset.sdiff_eq_empty_iff_subset, Finset.singleton_subset_iff]
        exact hm
      simp [this, hm]
    · have : ({i} : Finset Nat) \ S = {i} :=
        Finset.sdiff_eq_self_iff_disjoint.mpr (Finset.disjoint_singleton_left.mpr hm)
      simp [this, hm]

/-- Splitting new positions of a union against an already-seen set. -/
theorem card_fc_split (A B S : Finset Nat) :
    ((A ∪ B) \ S).card = (A \ S).card + (B \ (S ∪ A)).card := by
  have hset : (A ∪ B) \ S = (A \ S) ∪ (B \ (S ∪ A)) := by
    ext x
    simp only [Finset.mem_sdiff, Finset.mem_union, not_or]
    tauto
  have hdis : Disjoint (A \ S) (B \ (S ∪ A)) := by
    rw [Finset.disjoint_left]
    intro x hx hx'
    simp only [Finset.mem_sdiff, Finset.mem_union, not_or] at hx hx'
    exact hx'.2.2 hx.1
  rw [hset, Finset.card_union_of_disjoint hdis]

/-- The part loop accumulates exactly the emitting positions: final set is
the union with `fcPosFrom`, and both the index advance and the number of
emitted tool-call chunks equal the number of positions not seen before. -/
theorem processParts_fc (keep : Bool) (uuids : Nat → String) :
    ∀ (ps : List Json) (i : Nat) (ctx : StreamContext),
    (processParts keep uuids i ps ctx).1.emittedFunctionCalls =
      ctx.emittedFunctionCalls ∪ fcPosFrom keep i ps ∧
    (processParts keep uuids i ps ctx).1.toolCallIndex =
      ctx.toolCallIndex + (fcPosFrom keep i ps \ ctx.emittedFunctionCalls).card ∧
    countToolCalls (processParts keep uuids i ps ctx).2 =
      (fcPosFrom keep i ps \ ctx.emittedFunctionCalls).card
  | [], i, ctx => by simp [processParts, fcPosFrom, countToolCalls]
  | p :: ps, i, ctx => by
      obtain ⟨h1, h2, h3⟩ := processPart_fc keep uuids i p ctx
      have hA : (processPart keep uuids i p ctx).1.emittedFunctionCalls =
          ctx.emittedFunctionCalls ∪
            (if partEmitsFC keep p then ({i} : Finset Nat) else ∅) := by
        rw [h1]
        by_cases hpe : partEmitsFC keep p = true
        · simp only [hpe, if_pos]
          rw [Finset.insert_eq, Finset.union_comm]
        · simp [hpe]
      obtain ⟨ih1, ih2, ih3⟩ := processParts_fc keep uuids ps (i + 1)
        (processPart keep uuids i p ctx).1
      rw [hA] at ih1 ih2 ih3
      have hadj : (if partEmitsFC keep p = true ∧ i ∉ ctx.emittedFunctionCalls
            then 1 else 0) =
          ((if partEmitsFC keep p then ({i} : Finset Nat) else ∅) \
            ctx.emittedFunctionCalls).card := (card_fc_adjust _ i _).symm
      refine ⟨?_, ?_, ?_⟩
      · show (processParts keep uuids (i + 1) ps
            (processPart keep uuids i p ctx).1).1.emittedFunctionCalls = _
        rw [ih1]
        show _ = ctx.emittedFunctionCalls ∪
          ((if partEmitsFC keep p then ({i} : Finset Nat) else ∅) ∪
            fcPosFrom keep (i + 1) ps)
        rw [Finset.union_assoc]
      · show (processParts keep uuids (i + 1) ps
            (processPart keep uuids i p ctx).1).1.toolCallIndex = _
        rw [ih2, h2]
        show _ = ctx.toolCallIndex +
          (((if partEmitsFC keep p then ({i} : Finset Nat) else ∅) ∪
            fcPosFrom keep (i + 1) ps) \ ctx.emittedFunctionCalls).card
        rw [card_fc_split, ← hadj]
        split_ifs with hc <;> omega
      · show countToolCalls ((processPart keep uuids i p ctx).2 ++
            (processParts keep uuids (i + 1) ps
              (processPart keep uuids i p ctx).1).2) = _
        rw [countToolCalls_append, h3, ih3]
        show _ = (((if partEmitsFC keep p then ({i} : Finset Nat) else ∅) ∪
            fcPosFrom keep (i + 1) ps) \ ctx.emittedFunctionCalls).card
        rw [card_fc_split, ← hadj]

/-- Counting a union against a seen-set: the union's size is the seen
size plus the number of genuinely new elements. -/
theorem card_union_sdiff (S P : Finset Nat) :
    (S ∪ P).card = S.card + (P \ S).card := by
  rw [← Finset.union_sdiff_self_eq_union, Finset.card_union_of_disjoint Finset.disjoint_sdiff]

/-- Unfolding of the emit condition: a part emits exactly when it has a
truthy `functionCall` and is not dropped by the thought filter. -/
theorem partEmitsFC_spec (keep : Bool) (p : Json) (h : partEmitsFC keep p = true) :
    (∃ fc, Json.jget p "functionCall" = some fc ∧ Json.truthy fc = true) ∧
    ¬ (Json.otruthy (Json.jget p "text") = true ∧
       Json.jget p "thought" = some (Json.bool true) ∧ keep = false) := by
  unfold partEmitsFC at h
  rw [Bool.and_eq_true] at h
  obtain ⟨h1, h2⟩ := h
  constructor
  · rcases hfc : Json.jget p "functionCall" with _ | fc
    · rw [hfc] at h1
      exact absurd h1 (by simp [Json.otruthy])
    · rw [hfc] at h1
      exact ⟨fc, rfl, by simpa [Json.otruthy] using h1⟩
  · rintro ⟨hA, hB, hC⟩
    simp [hA, hB, hC] at h2

/-- `processGeminiChunk` adds exactly its frame's emitting positions and
emits one tool-call chunk per position not already seen. -/
theorem processGeminiChunk_fc (keep : Bool) (uuids : Nat → String) (data : Json)
    (ctx : StreamContext) :
    (processGeminiChunk keep uuids data ctx).1.emittedFunctionCalls =
      ctx.emittedFunctionCalls ∪ chunkFCPositions keep data ∧
    countToolCalls (processGeminiChunk keep uuids data ctx).2 =
      (chunkFCPositions keep data \ ctx.emittedFunctionCalls).card := by
  unfold processGeminiChunk chunkFCPositions
  rcases hp : getPartsValue data with _ | parts
  · exact ⟨by simp, by simp [countToolCalls]⟩
  · dsimp only
    constructor
    · by_cases ht : Json.truthy parts = true
      · rw [if_pos ht, if_pos ht]
        exact (processParts_fc keep uuids (partsElems parts) 0 ctx).1
      · rw [if_neg ht, if_neg ht]
        simp
    · by_cases ht : Json.truthy parts = true
      · rw [if_pos ht, if_pos ht]
        exact (processParts_fc keep uuids (partsElems parts) 0 ctx).2.2
      · rw [if_neg ht, if_neg ht]
        simp [countToolCalls]

/-- The frame fold accumulates exactly the emitting positions of all
frames, emitting one tool-call chunk per position not seen before. -/
theorem processChunks_fc (keep : Bool) (uuids : Nat → String) :
    ∀ (cs : List Json) (ctx : StreamContext),
    (processChunks keep uuids cs ctx).1.emittedFunctionCalls =
      ctx.emittedFunctionCalls ∪ allFCPositions keep cs ∧
    countToolCalls (processChunks keep uuids cs ctx).2 =
      (allFCPositions keep cs \ ctx.emittedFunctionCalls).card
  | [], ctx => by simp [processChunks, allFCPositions, countToolCalls]
  | c :: cs, ctx => by
      obtain ⟨h1, h2⟩ := processGeminiChunk_fc keep uuids c ctx
      obtain ⟨ih1, ih2⟩ := processChunks_fc keep uuids cs
        (processGeminiChunk keep uuids c ctx).1
      rw [h1] at ih1 ih2
      have hall : allFCPositions keep (c :: cs) =
          chunkFCPositions keep c ∪ allFCPositions keep cs := rfl
      constructor
      · show (processChunks keep uuids cs
            (processGeminiChunk keep uuids c ctx).1).1.emittedFunctionCalls = _
        rw [ih1, hall, Finset.union_assoc]
      · show countToolCalls ((processGeminiChunk keep uuids c ctx).2 ++
            (processChunks keep uuids cs
              (processGeminiChunk keep uuids c ctx).1).2) = _
        rw [countToolCalls_append, h2, ih2, hall, card_fc_split]

/-- Each SSE line grows the seen-set by some position set and emits
exactly the new positions of that set. -/
theorem processLine_grow (parse : String → Option Json) (keep : Bool)
    (uuids : Nat → String) (line : String) (ctx : StreamContext) :
    ∃ P : Finset Nat,
      (processLine parse keep uuids line ctx).1.emittedFunctionCalls =
        ctx.emittedFunctionCalls ∪ P ∧
      countToolCalls (processLine parse keep uuids line ctx).2 =
        (P \ ctx.emittedFunctionCalls).card := by
  unfold processLine
  by_cases h1 : (line = "" ∨ ¬ strStartsWith line "data:" = true)
  · rw [if_pos h1]
    exact ⟨∅, by simp, by simp [countToolCalls]⟩
  · rw [if_neg h1]
    by_cases h2 : (strTrim (strDrop line 5) = "" ∨ strTrim (strDrop line 5) = "[DONE]")
    · rw [if_pos h2]
      exact ⟨∅, by simp, by simp [countToolCalls]⟩
    · rw [if_neg h2]
      rcases hp : parse (strTrim (strDrop line 5)) with _ | d
      · exact ⟨∅, by simp, by simp [countToolCalls]⟩
      · exact ⟨chunkFCPositions keep d, (processGeminiChunk_fc keep uuids d ctx).1,
          (processGeminiChunk_fc keep uuids d ctx).2⟩

/-- The line fold keeps the count of emitted tool-call chunks equal to
the size of the seen-set. -/
theorem foldLines_count (parse : String → Option Json) (keep : Bool)
    (uuids : Nat → String) :
    ∀ (lines : List String) (start : StreamContext × List OutChunk),
      countToolCalls start.2 = start.1.emittedFunctionCalls.card →
      countToolCalls ((lines.foldl
        (fun (a : StreamContext × List OutChunk) ln =>
          let r := processLine parse keep uuids (strTrim ln) a.1
          (r.1, a.2 ++ r.2)) start)).2 =
      ((lines.foldl
        (fun (a : StreamContext × List OutChunk) ln =>
          let r := processLine parse keep uuids (strTrim ln) a.1
          (r.1, a.2 ++ r.2)) start)).1.emittedFunctionCalls.card := by
  intro lines
  induction lines with
  | nil => intro start h; exact h
  | cons ln rest ih =>
      intro start h
      simp only [List.foldl_cons]
      refine ih _ ?_
      obtain ⟨P, hP1, hP2⟩ := processLine_grow parse keep uuids (strTrim ln) start.1
      show countToolCalls
          (start.2 ++ (processLine parse keep uuids (strTrim ln) start.1).2) =
        (processLine parse keep uuids (strTrim ln) start.1).1.emittedFunctionCalls.card
      rw [countToolCalls_append, h, hP1, hP2, card_union_sdiff]

/-- The read fold keeps the count of emitted tool-call chunks equal to
the size of the seen-set. -/
theorem transformReads_count (parse : String → Option Json) (keep : Bool)
    (uuids : Nat → String) :
    ∀ (reads : List String) (acc : TransformAcc),
      countToolCalls acc.outs = acc.ctx.emittedFunctionCalls.card →
      countToolCalls ((reads.foldl (transformRead parse keep uuids) acc)).outs =
        ((reads.foldl (transformRead parse keep uuids) acc)).ctx.emittedFunctionCalls.card := by
  intro reads
  induction reads with
  | nil => intro acc h; exact h
  | cons chunk rest ih =>
      intro acc h
      simp only [List.foldl_cons]
      refine ih _ ?_
      unfold transformRead
      exact foldLines_count parse keep uuids _ (acc.ctx, acc.outs) h

/-- The end-of-stream flush preserves the count-equals-seen invariant. -/
theorem transformEnd_count (parse : String → Option Json) (keep : Bool)
    (uuids : Nat → String) (acc : TransformAcc)
    (h : countToolCalls acc.outs = acc.ctx.emittedFunctionCalls.card) :
    countToolCalls (transformEnd parse keep uuids acc) =
      (transformEndCtx parse keep uuids acc).emittedFunctionCalls.card := by
  have hstop : countToolCalls [OutChunk.stopChunk] = 0 := rfl
  unfold transformEnd transformEndCtx
  dsimp only
  by_cases h1 : strTrim acc.buffer ≠ ""
  · rw [if_pos h1, if_pos h1]
    by_cases h2 : strStartsWith (strTrim acc.buffer) "data:" = true
    · rw [if_pos h2, if_pos h2]
      obtain ⟨P, hP1, hP2⟩ := processLine_grow parse keep uuids (strTrim acc.buffer) acc.ctx
      rw [countToolCalls_append, countToolCalls_append, hstop, h, hP1, hP2,
        card_union_sdiff]
      omega
    · rw [if_neg h2, if_neg h2]
      by_cases h3 : (strStartsWith (strTrim acc.buffer) "[" = true ∨
          strStartsWith (strTrim acc.buffer) "\x7b" = true)
      · rw [if_pos h3, if_pos h3]
        generalize parse (strTrim acc.buffer) = o
        rcases o with _ | j
        · rw [countToolCalls_append, countToolCalls_append, hstop, h]
          simp [countToolCalls]
        · dsimp only
          obtain ⟨hc1, hc2⟩ := processChunks_fc keep uuids
            (match j with | .arr xs => xs | other => [other]) acc.ctx
          rw [countToolCalls_append, countToolCalls_append, hstop, h, hc1, hc2,
            card_union_sdiff]
          omega
      · rw [if_neg h3, if_neg h3]
        rw [countToolCalls_append, countToolCalls_append, hstop, h]
        simp [countToolCalls]
  · rw [if_neg h1, if_neg h1]
    rw [countToolCalls_append, countToolCalls_append, hstop, h]
    simp [countToolCalls]

/-- Over a whole transformer run the number of emitted tool-call chunks
equals the number of distinct emitting positions recorded in the final
seen-set: at most one tool-call chunk is ever emitted per position. -/
theorem transform_count (parse : String → Option Json) (keep : Bool)
    (uuids : Nat → String) (reads : List String) (outcome : Option String) :
    countToolCalls (transformGeminiToOpenAIStream parse keep uuids reads outcome) =
      (transformFinalCtx parse keep uuids reads outcome).emittedFunctionCalls.card := by
  unfold transformGeminiToOpenAIStream transformFinalCtx
  have hinv := transformReads_count parse keep uuids reads initTransformAcc rfl
  rcases outcome with _ | msg
  · exact transformEnd_count parse keep uuids _ hinv
  · dsimp only
    rw [countToolCalls_append, hinv]
    have : countToolCalls [OutChunk.errorStop ("\n\nStream error: " ++ msg)] = 0 := rfl
    rw [this]
    omega

/-- First delivery of an emitting part at a new position: exactly one
tool-call chunk, placed last, carrying the current `toolCallIndex` and the
freshly drawn call id, after which the index increments by one. -/
theorem processPart_first_emit (keep : Bool) (uuids : Nat → String) (i : Nat)
    (p : Json) (ctx : StreamContext)
    (hpe : partEmitsFC keep p = true) (hmem : i ∉ ctx.emittedFunctionCalls) :
    countToolCalls (processPart keep uuids i p ctx).2 = 1 ∧
    (∃ nm args, (processPart keep uuids i p ctx).2.getLast? =
      some (OutChunk.toolCallDelta ⟨ctx.toolCallIndex,
        mkCallId (uuids ctx.toolCallIndex), "function", nm, args⟩)) ∧
    (processPart keep uuids i p ctx).1.toolCallIndex = ctx.toolCallIndex + 1 := by
  obtain ⟨⟨fc, hfc, htr⟩, hns⟩ := partEmitsFC_spec keep p hpe
  unfold processPart
  rw [if_neg hns, hfc]
  dsimp only
  rw [if_pos htr, if_neg hmem]
  refine ⟨?_, ⟨_, _, List.getLast?_concat _⟩, rfl⟩
  rw [countToolCalls_append, countToolCalls_textOut]
  rfl

/-- Re-delivery at an already-emitted position: the context is unchanged
and no tool-call chunk is emitted, regardless of the part's content. -/
theorem processPart_skip (keep : Bool) (uuids : Nat → String) (i : Nat)
    (p : Json) (ctx : StreamContext) (hmem : i ∈ ctx.emittedFunctionCalls) :
    (processPart keep uuids i p ctx).1 = ctx ∧
    countToolCalls (processPart keep uuids i p ctx).2 = 0 := by
  unfold processPart
  by_cases hskip : (Json.otruthy (Json.jget p "text") = true ∧
      Json.jget p "thought" = some (Json.bool true) ∧ keep = false)
  · rw [if_pos hskip]
    exact ⟨rfl, rfl⟩
  · rw [if_neg hskip]
    rcases hfc : Json.jget p "functionCall" with _ | fc
    · dsimp only
      exact ⟨rfl, countToolCalls_textOut _⟩
    · dsimp only
      by_cases htr : Json.truthy fc = true
      · rw [if_pos htr, if_pos hmem]
        exact ⟨rfl, countToolCalls_textOut _⟩
      · rw [if_neg htr]
        exact ⟨rfl, countToolCalls_textOut _⟩

/-- **C1.** Under the cumulative-parts protocol the transformer emits
exactly one tool-call chunk per emitting parts position: over any parsed
frame sequence the number of emitted tool-call chunks equals the number
of distinct emitting positions (and the final seen-set is exactly that
position set); the same count-equals-positions equality holds for the
whole read-level `transformGeminiToOpenAIStream`; the first occurrence of
a position is emitted with the current `toolCallIndex`, which then
increments by one; and every later occurrence at an already-emitted
position is skipped with no output and no state change. -/
theorem c1_cumulative_dedup (keep : Bool) (uuids : Nat → String) :
    (∀ cs : List Json,
      countToolCalls (processChunks keep uuids cs initStreamCtx).2 =
        (allFCPositions keep cs).card ∧
      (processChunks keep uuids cs initStreamCtx).1.emittedFunctionCalls =
        allFCPositions keep cs) ∧
    (∀ (parse : String → Option Json) (reads : List String) (outcome : Option String),
      countToolCalls (transformGeminiToOpenAIStream parse keep uuids reads outcome) =
        (transformFinalCtx parse keep uuids reads outcome).emittedFunctionCalls.card) ∧
    (∀ (i : Nat) (p : Json) (ctx : StreamContext),
      partEmitsFC keep p = true → i ∉ ctx.emittedFunctionCalls →
      countToolCalls (processPart keep uuids i p ctx).2 = 1 ∧
      (∃ nm args, (processPart keep uuids i p ctx).2.getLast? =
        some (OutChunk.toolCallDelta ⟨ctx.toolCallIndex,
          mkCallId (uuids ctx.toolCallIndex), "function", nm, args⟩)) ∧
      (processPart keep uuids i p ctx).1.toolCallIndex = ctx.toolCallIndex + 1) ∧
    (∀ (i : Nat) (p : Json) (ctx : StreamContext),
      i ∈ ctx.emittedFunctionCalls →
      (processPart keep uuids i p ctx).1 = ctx ∧
      countToolCalls (processPart keep uuids i p ctx).2 = 0) := by
  refine ⟨?_, ?_, ?_, ?_⟩
  · intro cs
    obtain ⟨h1, h2⟩ := processChunks_fc keep uuids cs initStreamCtx
    constructor
    · rw [h2]
      show (allFCPositions keep cs \ (∅ : Finset Nat)).card = _
      rw [Finset.sdiff_empty]
    · rw [h1]
      show (∅ : Finset Nat) ∪ allFCPositions keep cs = _
      rw [Finset.empty_union]
  · intro parse reads outcome
    exact transform_count parse keep uuids reads outcome
  · intro i p ctx hpe hmem
    exact processPart_first_emit keep uuids i p ctx hpe hmem
  · intro i p ctx hmem
    exact processPart_skip keep uuids i p ctx hmem

/-- Witness for **C1** at a concrete two-frame cumulative stream that
re-delivers the same function call at position 0. -/
theorem c1_cumulative_dedup_witness :
    countToolCalls (processChunks false (fun _ => wUuid) [wFrame, wFrame]
      initStreamCtx).2 = 1 ∧
    countToolCalls (processPart false (fun _ => wUuid) 0 wPart ⟨0, ∅⟩).2 = 1 ∧
    (processPart false (fun _ => wUuid) 0 wPart ⟨0, ∅⟩).1.toolCallIndex = 1 ∧
    (processPart false (fun _ => wUuid) 0 wPart ⟨5, {0}⟩).1 = ⟨5, {0}⟩ ∧
    countToolCalls (processPart false (fun _ => wUuid) 0 wPart ⟨5, {0}⟩).2 = 0 := by
  obtain ⟨hA, hB, hC, hD⟩ := c1_cumulative_dedup false (fun _ => wUuid)
  refine ⟨?_, ?_, ?_, ?_, ?_⟩
  · rw [(hA [wFrame, wFrame]).1]
    decide
  · exact (hC 0 wPart ⟨0, ∅⟩ (by decide) (by decide)).1
  · exact (hC 0 wPart ⟨0, ∅⟩ (by decide) (by decide)).2.2
  · exact (hD 0 wPart ⟨5, {0}⟩ (by decide)).1
  · exact (hD 0 wPart ⟨5, {0}⟩ (by decide)).2

/-- Writing one key leaves every other key's lookup unchanged. -/
theorem lookup_setKey_ne (k k' : String) (v : Json) (h : (k' == k) = false) :
    ∀ fs : List (String × Json), (Json.setKey fs k v).lookup k' = fs.lookup k'
  | [] => by simp [Json.setKey, List.lookup, h]
  | (a, b) :: t => by
      by_cases hk : (a == k) = true
      · have ha : a = k := by simpa using hk
        subst ha
        simp [Json.setKey, List.lookup, h]
      · simp only [Json.setKey]
        rw [if_neg (by simpa using hk)]
        rcases h2 : (k' == a) with _ | _
        · simp [List.lookup, h2, lookup_setKey_ne k k' v h t]
        · simp [List.lookup, h2]

/-- Lookup through the key-preserving field map of `withFcId`. -/
theorem lookup_withFcIdFields (v : Json) :
    ∀ (fs : List (String × Json)) (k : String),
      (fs.map (fun kv =>
        if kv.1 = "functionCall" then
          (kv.1, match kv.2 with
            | Json.obj g => Json.obj (Json.setKey g "id" v)
            | other => other)
        else kv)).lookup k =
      if k = "functionCall" then
        (fs.lookup k).map (fun fc => match fc with
          | Json.obj g => Json.obj (Json.setKey g "id" v)
          | other => other)
      else fs.lookup k
  | [], k => by simp [List.lookup]
  | (a, b) :: t, k => by
      simp only [List.map_cons]
      by_cases ha : a = "functionCall"
      · subst ha
        rw [if_pos rfl]
        by_cases hk : k = "functionCall"
        · subst hk
          simp [List.lookup]
        · rw [if_neg hk]
          have hk2 : (k == "functionCall") = false := by
            simpa using hk
          simp only [List.lookup, hk2]
          have := lookup_withFcIdFields v t k
          rw [if_neg hk] at this
          exact this
      · rw [if_neg ha]
        rcases h2 : (k == a) with _ | _
        · simp only [List.lookup, h2]
          exact lookup_withFcIdFields v t k
        · have hka : k = a := by simpa using h2
          subst hka
          have hk : ¬ k = "functionCall" := ha
          simp [List.lookup, if_neg hk]

/-- `withFcId` only touches the `functionCall` member. -/
theorem jget_withFcId (p v : Json) (k : String) :
    Json.jget (withFcId p v) k =
      if k = "functionCall" then
        (Json.jget p k).map (fun fc => match fc with
          | Json.obj g => Json.obj (Json.setKey g "id" v)
          | other => other)
      else Json.jget p k := by
  cases p with
  | obj fs => exact lookup_withFcIdFields v fs k
  | null => simp [withFcId, Json.jget]
  | bool b => simp [withFcId, Json.jget]
  | num n => simp [withFcId, Json.jget]
  | str s => simp [withFcId, Json.jget]
  | arr xs => simp [withFcId, Json.jget]

/-- The loop body ignores any upstream-provided `functionCall.id`:
rewriting it changes nothing about the emitted chunks or the state. -/
theorem processPart_withFcId (keep : Bool) (uuids : Nat → String) (i : Nat)
    (p v : Json) (ctx : StreamContext) :
    processPart keep uuids i (withFcId p v) ctx = processPart keep uuids i p ctx := by
  have htext : Json.jget (withFcId p v) "text" = Json.jget p "text" := by
    rw [jget_withFcId]
    simp
  have hth : Json.jget (withFcId p v) "thought" = Json.jget p "thought" := by
    rw [jget_withFcId]
    simp
  have hfc : Json.jget (withFcId p v) "functionCall" =
      (Json.jget p "functionCall").map (fun fc => match fc with
        | Json.obj g => Json.obj (Json.setKey g "id" v)
        | other => other) := by
    rw [jget_withFcId]
    simp
  unfold processPart
  rw [htext, hth, hfc]
  rcases hfcp : Json.jget p "functionCall" with _ | fc
  · rfl
  · simp only [Option.map_some']
    cases fc with
    | obj g =>
        have hargs : Json.jget (Json.obj (Json.setKey g "id" v)) "args" =
            Json.jget (Json.obj g) "args" :=
          lookup_setKey_ne "id" "args" v (by decide) g
        have hname : Json.jget (Json.obj (Json.setKey g "id" v)) "name" =
            Json.jget (Json.obj g) "name" :=
          lookup_setKey_ne "id" "name" v (by decide) g
        have htr : (Json.obj (Json.setKey g "id" v)).truthy = (Json.obj g).truthy := rfl
        dsimp only
        rw [hargs, hname, htr]
    | null => rfl
    | bool b => rfl
    | num n => rfl
    | str s => rfl
    | arr xs => rfl

/-- Text deltas are never tool-call chunks. -/
theorem textOut_no_delta (o : Option Json) (c : OutChunk)
    (hc : c ∈ (match o with
      | some t => if Json.truthy t then [OutChunk.contentDelta t] else []
      | none => ([] : List OutChunk))) :
    ∀ t, c ≠ OutChunk.toolCallDelta t := by
  rcases o with _ | tx
  · simp at hc
  · dsimp only at hc
    by_cases ht : Json.truthy tx = true
    · rw [if_pos ht] at hc
      simp only [List.mem_singleton] at hc
      subst hc
      intro t h
      exact OutChunk.noConfusion h
    · rw [if_neg ht] at hc
      simp at hc

/-- Every tool-call chunk emitted by the loop body carries an id drawn
from the uuid supply through `mkCallId`. -/
theorem processPart_ids (keep : Bool) (uuids : Nat → String) (i : Nat)
    (p : Json) (ctx : StreamContext) :
    ∀ c ∈ (processPart keep uuids i p ctx).2, ∀ t,
      c = OutChunk.toolCallDelta t → ∃ k, t.id = mkCallId (uuids k) := by
  intro c hc t hct
  unfold processPart at hc
  by_cases hskip : (Json.otruthy (Json.jget p "text") = true ∧
      Json.jget p "thought" = some (Json.bool true) ∧ keep = false)
  · rw [if_pos hskip] at hc
    simp at hc
  · rw [if_neg hskip] at hc
    rcases hfc : Json.jget p "functionCall" with _ | fc
    · rw [hfc] at hc
      dsimp only at hc
      exact absurd hct (textOut_no_delta (Json.jget p "text") c hc t)
    · rw [hfc] at hc
      dsimp only at hc
      by_cases htr : Json.truthy fc = true
      · rw [if_pos htr] at hc
        by_cases hmem : i ∈ ctx.emittedFunctionCalls
        · rw [if_pos hmem] at hc
          exact absurd hct (textOut_no_delta (Json.jget p "text") c hc t)
        · rw [if_neg hmem] at hc
          rw [List.mem_append] at hc
          rcases hc with hc | hc
          · exact absurd hct (textOut_no_delta (Json.jget p "text") c hc t)
          · simp only [List.mem_singleton] at hc
            subst hc
            obtain rfl : t = _ := OutChunk.toolCallDelta.inj hct.symm
            exact ⟨ctx.toolCallIndex, rfl⟩
      · rw [if_neg htr] at hc
        exact absurd hct (textOut_no_delta (Json.jget p "text") c hc t)

/-- Every tool-call chunk emitted by the part loop carries a drawn id. -/
theorem processParts_ids (keep : Bool) (uuids : Nat → String) :
    ∀ (ps : List Json) (i : Nat) (ctx : StreamContext),
      ∀ c ∈ (processParts keep uuids i ps ctx).2, ∀ t,
        c = OutChunk.toolCallDelta t → ∃ k, t.id = mkCallId (uuids k)
  | [], i, ctx => by
      intro c hc
      simp [processParts] at hc
  | p :: ps, i, ctx => by
      intro c hc t hct
      rw [show processParts keep uuids i (p :: ps) ctx =
        ((processParts keep uuids (i + 1) ps (processPart keep uuids i p ctx).1).1,
         (processPart keep uuids i p ctx).2 ++
           (processParts keep uuids (i + 1) ps (processPart keep uuids i p ctx).1).2)
        from rfl] at hc
      rw [List.mem_append] at hc
      rcases hc with hc | hc
      · exact processPart_ids keep uuids i p ctx c hc t hct
      · exact processParts_ids keep uuids ps (i + 1) _ c hc t hct

/-- Every tool-call chunk emitted for one frame carries a drawn id. -/
theorem processGeminiChunk_ids (keep : Bool) (uuids : Nat → String) (data : Json)
    (ctx : StreamContext) :
    ∀ c ∈ (processGeminiChunk keep uuids data ctx).2, ∀ t,
      c = OutChunk.toolCallDelta t → ∃ k, t.id = mkCallId (uuids k) := by
  intro c hc t hct
  unfold processGeminiChunk at hc
  rcases hp : getPartsValue data with _ | parts
  · rw [hp] at hc
    simp at hc
  · rw [hp] at hc
    dsimp only at hc
    by_cases ht : Json.truthy parts = true
    · rw [if_pos ht] at hc
      exact processParts_ids keep uuids (partsElems parts) 0 ctx c hc t hct
    · rw [if_neg ht] at hc
      simp at hc

/-- Every tool-call chunk emitted over a frame sequence carries a drawn
id. -/
theorem processChunks_ids (keep : Bool) (uuids : Nat → String) :
    ∀ (cs : List Json) (ctx : StreamContext),
      ∀ c ∈ (processChunks keep uuids cs ctx).2, ∀ t,
        c = OutChunk.toolCallDelta t → ∃ k, t.id = mkCallId (uuids k)
  | [], ctx => by
      intro c hc
      simp [processChunks] at hc
  | d :: cs, ctx => by
      intro c hc t hct
      rw [show processChunks keep uuids (d :: cs) ctx =
        ((processChunks keep uuids cs (processGeminiChunk keep uuids d ctx).1).1,
         (processGeminiChunk keep uuids d ctx).2 ++
           (processChunks keep uuids cs (processGeminiChunk keep uuids d ctx).1).2)
        from rfl] at hc
      rw [List.mem_append] at hc
      rcases hc with hc | hc
      · exact processGeminiChunk_ids keep uuids d ctx c hc t hct
      · exact processChunks_ids keep uuids cs _ c hc t hct

/-- **C10.** The deduplication is keyed by parts-array position alone,
not by call content: at an already-emitted position any part — including
one carrying a different function call — is dropped with no output and no
state change; over a whole frame sequence the number of emitted tool-call
chunks equals the number of distinct emitting positions, so at most one
tool-call chunk is ever emitted per position; any upstream-provided
`functionCall.id` is ignored (rewriting it changes nothing); and when the
uuid supply is well formed every emitted tool-call chunk's id has the
shape `call_` followed by 24 hex characters. -/
theorem c10_position_keyed_dedup (keep : Bool) (uuids : Nat → String) :
    (∀ (i : Nat) (p : Json) (ctx : StreamContext),
      i ∈ ctx.emittedFunctionCalls →
      (processPart keep uuids i p ctx).1 = ctx ∧
      countToolCalls (processPart keep uuids i p ctx).2 = 0) ∧
    (∀ cs : List Json,
      countToolCalls (processChunks keep uuids cs initStreamCtx).2 =
        (allFCPositions keep cs).card) ∧
    (∀ (i : Nat) (p v : Json) (ctx : StreamContext),
      processPart keep uuids i (withFcId p v) ctx =
        processPart keep uuids i p ctx) ∧
    ((∀ n, goodUuidStr (uuids n) = true) →
      ∀ (cs : List Json) (ctx : StreamContext),
        ∀ c ∈ (processChunks keep uuids cs ctx).2, ∀ t,
          c = OutChunk.toolCallDelta t → isCallIdShape t.id = true) := by
  refine ⟨?_, ?_, ?_, ?_⟩
  · intro i p ctx hmem
    exact processPart_skip keep uuids i p ctx hmem
  · intro cs
    rw [(processChunks_fc keep uuids cs initStreamCtx).2]
    show (allFCPositions keep cs \ (∅ : Finset Nat)).card = _
    rw [Finset.sdiff_empty]
  · intro i p v ctx
    exact processPart_withFcId keep uuids i p v ctx
  · intro hgood cs ctx c hc t hct
    obtain ⟨k, hk⟩ := processChunks_ids keep uuids cs ctx c hc t hct
    rw [hk]
    exact mkCallId_shape (hgood k)

/-- Witness for **C10** at concrete parts, frames and an upstream id. -/
theorem c10_position_keyed_dedup_witness :
    ((processPart false (fun _ => wUuid) 0 wPart2 ⟨7, {0}⟩).1 = ⟨7, {0}⟩ ∧
      countToolCalls (processPart false (fun _ => wUuid) 0 wPart2 ⟨7, {0}⟩).2 = 0) ∧
    countToolCalls (processChunks false (fun _ => wUuid) [wFrame, wFrame2]
      initStreamCtx).2 = 1 ∧
    processPart false (fun _ => wUuid) 0 (withFcId wPart (Json.str "upstream-id"))
      ⟨0, ∅⟩ = processPart false (fun _ => wUuid) 0 wPart ⟨0, ∅⟩ ∧
    isCallIdShape (mkCallId wUuid) = true := by
  obtain ⟨hA, hB, hC, hD⟩ := c10_position_keyed_dedup false (fun _ => wUuid)
  refine ⟨hA 0 wPart2 ⟨7, {0}⟩ (by decide), ?_, hC 0 wPart (Json.str "upstream-id") ⟨0, ∅⟩, ?_⟩
  · rw [hB [wFrame, wFrame2]]
    decide
  · refine hD (fun _ => (by decide : goodUuidStr wUuid = true))
      [wFrame] initStreamCtx
      (OutChunk.toolCallDelta ⟨0, mkCallId wUuid, "function",
        some (Json.str "f"), jsonStringify (Json.obj [("x", Json.num 1)])⟩)
      (by decide)
      ⟨0, mkCallId wUuid, "function", some (Json.str "f"),
        jsonStringify (Json.obj [("x", Json.num 1)])⟩ rfl

mutual

/-- On untouched-shaped trees the post-state equals the input. -/
theorem untouched_post : ∀ s : Json, untouchedLight s = true →
    cleanJsonSchemaPost s = s
  | Json.obj fs, h => by
      have h' : untouchedFields fs = true := h
      show Json.obj (postLightFields fs) = Json.obj fs
      rw [untouched_postFields fs h']
  | Json.null, _ => rfl
  | Json.bool b, _ => rfl
  | Json.num n, _ => rfl
  | Json.str s, _ => rfl
  | Json.arr xs, _ => rfl

theorem untouched_postFields : ∀ fs : List (String × Json),
    untouchedFields fs = true → postLightFields fs = fs
  | [], _ => rfl
  | kv :: t, h => by
      have h' := h
      unfold untouchedFields at h'
      rw [Bool.and_eq_true, Bool.and_eq_true] at h'
      obtain ⟨⟨h1, h2⟩, h3⟩ := h'
      show (if kv.1 == "properties" && objLike kv.2 then (kv.1, mapCleanEntries kv.2)
        else if kv.1 == "items" && objLike kv.2 then (kv.1, cleanJsonSchemaPost kv.2)
        else kv) :: postLightFields t = kv :: t
      rw [untouched_postFields t h3]
      rw [Bool.not_eq_true'] at h1
      rw [if_neg (by simp [h1])]
      by_cases hit : (kv.1 == "items" && objLike kv.2) = true
      · rw [if_pos hit]
        rw [Bool.or_eq_true] at h2
        rcases h2 with h2 | h2
        · rw [Bool.not_eq_true'] at h2
          rw [hit] at h2
          exact absurd h2 (by decide)
        · rw [untouched_post kv.2 h2]
      · rw [if_neg hit]

end

/-- While a refresh is in flight and no valid token is cached, every
further call joins the existing promise and changes nothing. -/
theorem runCalls_inflight : ∀ (m : Nat) (st : OAuthState),
    st.cacheValid = false → st.inflight = true →
    runCalls m st = (st, List.replicate m (CallResult.share st.posts))
  | 0, st, _, _ => by simp [runCalls]
  | m + 1, st, hc, hi => by
      show (let r := getAccessTokenStep st
        let rest := runCalls m r.1
        (rest.1, r.2 :: rest.2)) = _
      have hstep : getAccessTokenStep st = (st, CallResult.share st.posts) := by
        unfold getAccessTokenStep
        rw [hc, hi]
        simp
      rw [hstep]
      dsimp only
      rw [runCalls_inflight m st hc hi]
      simp [List.replicate]

/-- **C9.** Single-flight refresh: for any burst of `n ≥ 1` concurrent
`getAccessToken` calls arriving while no valid token is cached and no
refresh is in flight, exactly one outbound POST is issued and every
caller receives the promise of that one refresh; settling the refresh
removes the in-flight record whether it succeeded or failed, so after a
failed refresh the next call starts a new one (the next POST), while
after a successful refresh the next call hits the cache. -/
theorem c9_single_flight (p n : Nat) (hn : 0 < n) :
    ((runCalls n ⟨false, false, p⟩).1.posts = p + 1 ∧
     (runCalls n ⟨false, false, p⟩).1.inflight = true ∧
     (runCalls n ⟨false, false, p⟩).1.cacheValid = false ∧
     (runCalls n ⟨false, false, p⟩).2 =
       List.replicate n (CallResult.share (p + 1))) ∧
    (∀ ok evict, (resolveStep (runCalls n ⟨false, false, p⟩).1 ok evict).inflight
      = false) ∧
    (∀ evict, (getAccessTokenStep
        (resolveStep (runCalls n ⟨false, false, p⟩).1 false evict)).2 =
      CallResult.share (p + 2)) ∧
    (getAccessTokenStep
        (resolveStep (runCalls n ⟨false, false, p⟩).1 true false)).2 =
      CallResult.hit := by
  obtain ⟨m, rfl⟩ : ∃ m, n = m + 1 := ⟨n - 1, by omega⟩
  have hrun : runCalls (m + 1) ⟨false, false, p⟩ =
      (⟨false, true, p + 1⟩, List.replicate (m + 1) (CallResult.share (p + 1))) := by
    show (let r := getAccessTokenStep ⟨false, false, p⟩
      let rest := runCalls m r.1
      (rest.1, r.2 :: rest.2)) = _
    have hstep : getAccessTokenStep ⟨false, false, p⟩ =
        (⟨false, true, p + 1⟩, CallResult.share (p + 1)) := rfl
    rw [hstep]
    dsimp only
    rw [runCalls_inflight m ⟨false, true, p + 1⟩ rfl rfl]
    simp [List.replicate]
  rw [hrun]
  refine ⟨⟨rfl, rfl, rfl, rfl⟩, ?_, ?_, rfl⟩
  · intro ok evict
    cases ok <;> rfl
  · intro evict
    cases evict <;> rfl

/-- Witness for **C9** at a burst of three concurrent calls. -/
theorem c9_single_flight_witness :
    0 < 3 ∧
    (runCalls 3 ⟨false, false, 0⟩).1.posts = 1 ∧
    (runCalls 3 ⟨false, false, 0⟩).2 = List.replicate 3 (CallResult.share 1) ∧
    (resolveStep (runCalls 3 ⟨false, false, 0⟩).1 false true).inflight = false ∧
    (getAccessTokenStep (resolveStep (runCalls 3 ⟨false, false, 0⟩).1 false true)).2 =
      CallResult.share 2 :=
  have h := c9_single_flight 0 3 (by decide)
  ⟨by decide, h.1.1, h.1.2.2.2, h.2.1 false true, h.2.2.1 true⟩

/-- Decimal digit characters produced by `Nat.digitChar` below 10. -/
theorem digitChar_isDigit (m : Nat) (h : m < 10) : (Nat.digitChar m).isDigit = true := by
  interval_cases m <;> decide

/-- Every character `Nat.toDigitsCore` emits over base 10 is a digit. -/
theorem toDigitsCore_digits :
    ∀ (f n : Nat) (l : List Char), (∀ c ∈ l, c.isDigit = true) →
      ∀ c ∈ Nat.toDigitsCore 10 f n l, c.isDigit = true
  | 0, n, l, hl => hl
  | f + 1, n, l, hl => by
      intro c hc
      simp only [Nat.toDigitsCore] at hc
      by_cases h0 : n / 10 = 0
      · rw [if_pos h0] at hc
        rcases List.mem_cons.mp hc with hc | hc
        · subst hc
          exact digitChar_isDigit _ (Nat.mod_lt _ (by decide))
        · exact hl c hc
      · rw [if_neg h0] at hc
        refine toDigitsCore_digits f (n / 10) _ ?_ c hc
        intro c' hc'
        rcases List.mem_cons.mp hc' with hc' | hc'
        · subst hc'
          exact digitChar_isDigit _ (Nat.mod_lt _ (by decide))
        · exact hl c' hc'

/-- Every character of a printed natural number is a digit. -/
theorem toString_nat_digits (n : Nat) : ∀ c ∈ (toString n).data, c.isDigit = true := by
  have h : (toString n).data = Nat.toDigitsCore 10 (n + 1) n [] := rfl
  rw [h]
  exact toDigitsCore_digits (n + 1) n [] (by intro c hc; cases hc)

/-- A printed natural number never equals a key containing a non-digit
character. -/
theorem decimal_key_ne (n : Nat) (k : String) (c : Char) (hc : c ∈ k.data)
    (hnd : c.isDigit = false) : (toString n == k) = false := by
  rw [beq_eq_false_iff_ne]
  intro he
  have hm : c ∈ (toString n).data := by rw [he]; exact hc
  have := toString_nat_digits n c hm
  rw [hnd] at this
  cases this

/-- Index keys of a spread never hit the light sanitizer's delete list. -/
theorem decimal_not_unsupported (n : Nat) :
    lightUnsupported.contains (toString n) = false := by
  have h1 := decimal_key_ne n "minLength" 'm' (by decide) (by decide)
  have h2 := decimal_key_ne n "maxLength" 'm' (by decide) (by decide)
  have h3 := decimal_key_ne n "pattern" 'p' (by decide) (by decide)
  have h4 := decimal_key_ne n "format" 'f' (by decide) (by decide)
  have h5 := decimal_key_ne n "examples" 'e' (by decide) (by decide)
  have h6 := decimal_key_ne n "default" 'd' (by decide) (by decide)
  have h7 := decimal_key_ne n "strict" 's' (by decide) (by decide)
  have h8 := decimal_key_ne n "$schema" '$' (by decide) (by decide)
  have h9 := decimal_key_ne n "additionalProperties" 'a' (by decide) (by decide)
  simp [lightUnsupported, List.contains, List.elem, h1, h2, h3, h4, h5, h6, h7, h8, h9]

/-- Field lists whose keys are all decimal indices pass through the
light sanitizer's field pass unchanged. -/
theorem cleanLightFields_of_decimal_keys :
    ∀ fs : List (String × Json), (∀ kv ∈ fs, ∃ n : Nat, kv.1 = toString n) →
      cleanLightFields fs = fs
  | [], _ => rfl
  | kv :: t, h => by
      obtain ⟨n, hn⟩ := h kv (List.mem_cons_self kv t)
      have h1 : lightUnsupported.contains kv.1 = false := by
        rw [hn]; exact decimal_not_unsupported n
      have h2 : (kv.1 == "properties") = false := by
        rw [hn]; exact decimal_key_ne n "properties" 'p' (by decide) (by decide)
      have h3 : (kv.1 == "items") = false := by
        rw [hn]; exact decimal_key_ne n "items" 'i' (by decide) (by decide)
      show (if lightUnsupported.contains kv.1 then cleanLightFields t
        else if kv.1 == "properties" && objLike kv.2 then
          (kv.1, mapCleanEntries kv.2) :: cleanLightFields t
        else if kv.1 == "items" && objLike kv.2 then
          (kv.1, cleanJsonSchema kv.2) :: cleanLightFields t
        else kv :: cleanLightFields t) = kv :: t
      rw [h1, h2, h3]
      simp only [Bool.false_and, if_false, Bool.false_eq_true]
      rw [cleanLightFields_of_decimal_keys t (fun kv hkv => h kv (List.mem_cons_of_mem _ hkv))]

mutual

/-- The light sanitizer is idempotent on returned values. -/
theorem cleanJsonSchema_idem : ∀ s, cleanJsonSchema (cleanJsonSchema s) = cleanJsonSchema s
  | Json.obj fs => by
      show Json.obj (cleanLightFields (cleanLightFields fs)) = Json.obj (cleanLightFields fs)
      rw [cleanLightFields_idem fs]
  | Json.null => rfl
  | Json.bool b => rfl
  | Json.num n => rfl
  | Json.str s => by
      show Json.obj (cleanLightFields (spreadToFields (Json.str s))) = _
      rw [cleanLightFields_of_decimal_keys _ (by
        intro kv hkv
        simp only [spreadToFields, List.mem_map] at hkv
        obtain ⟨p, _, hp⟩ := hkv
        exact ⟨p.1, by rw [← hp]⟩)]
      rfl
  | Json.arr xs => by
      show Json.obj (cleanLightFields (spreadToFields (Json.arr xs))) = _
      rw [cleanLightFields_of_decimal_keys _ (by
        intro kv hkv
        simp only [spreadToFields, List.mem_map] at hkv
        obtain ⟨p, _, hp⟩ := hkv
        exact ⟨p.1, by rw [← hp]⟩)]
      rfl

theorem cleanLightFields_idem : ∀ fs, cleanLightFields (cleanLightFields fs) = cleanLightFields fs
  | [] => rfl
  | kv :: t => by
      by_cases h1 : lightUnsupported.contains kv.1 = true
      · have heq : cleanLightFields (kv :: t) = cleanLightFields t := by
          rw [cleanLightFields, if_pos h1]
        rw [heq]
        exact cleanLightFields_idem t
      · by_cases h2 : (kv.1 == "properties" && objLike kv.2) = true
        · have heq : cleanLightFields (kv :: t) =
              (kv.1, mapCleanEntries kv.2) :: cleanLightFields t := by
            rw [cleanLightFields, if_neg h1, if_pos h2]
          rw [heq, cleanLightFields]
          rw [if_neg h1]
          have hobj : objLike (mapCleanEntries kv.2) = objLike kv.2 := by
            cases kv.2 <;> rfl
          have h2b : (kv.1 == "properties" && objLike (mapCleanEntries kv.2)) = true := by
            rw [hobj]; exact h2
          rw [if_pos h2b, mapCleanEntries_idem kv.2, cleanLightFields_idem t]
        · by_cases h3 : (kv.1 == "items" && objLike kv.2) = true
          · have heq : cleanLightFields (kv :: t) =
                (kv.1, cleanJsonSchema kv.2) :: cleanLightFields t := by
              rw [cleanLightFields, if_neg h1, if_neg h2, if_pos h3]
            rw [heq, cleanLightFields]
            rw [if_neg h1]
            have hitems : kv.1 = "items" := by
              rw [Bool.and_eq_true] at h3
              exact eq_of_beq h3.1
            have h2b : ¬ ((kv.1 == "properties" && objLike (cleanJsonSchema kv.2)) = true) := by
              rw [hitems]
              simp
            have h3b : (kv.1 == "items" && objLike (cleanJsonSchema kv.2)) = true := by
              rw [hitems, Bool.and_eq_true]
              refine ⟨by decide, ?_⟩
              cases kv.2 <;> rfl
            rw [if_neg h2b, if_pos h3b, cleanJsonSchema_idem kv.2, cleanLightFields_idem t]
          · have heq : cleanLightFields (kv :: t) = kv :: cleanLightFields t := by
              rw [cleanLightFields, if_neg h1, if_neg h2, if_neg h3]
            rw [heq, cleanLightFields]
            rw [if_neg h1, if_neg h2, if_neg h3, cleanLightFields_idem t]

theorem mapCleanEntries_idem : ∀ v, mapCleanEntries (mapCleanEntries v) = mapCleanEntries v
  | Json.obj gs => by
      show Json.obj (cleanEntryList (cleanEntryList gs)) = _
      rw [cleanEntryList_idem gs]
      rfl
  | Json.arr xs => by
      show Json.arr (cleanElemList (cleanElemList xs)) = _
      rw [cleanElemList_idem xs]
      rfl
  | Json.null => rfl
  | Json.bool b => rfl
  | Json.num n => rfl
  | Json.str s => rfl

theorem cleanEntryList_idem : ∀ gs, cleanEntryList (cleanEntryList gs) = cleanEntryList gs
  | [] => rfl
  | kv :: t => by
      show (kv.1, cleanJsonSchema (cleanJsonSchema kv.2)) :: cleanEntryList (cleanEntryList t) = _
      rw [cleanJsonSchema_idem kv.2, cleanEntryList_idem t]
      rfl

theorem cleanElemList_idem : ∀ xs, cleanElemList (cleanElemList xs) = cleanElemList xs
  | [] => rfl
  | x :: t => by
      show cleanJsonSchema (cleanJsonSchema x) :: cleanElemList (cleanElemList t) = _
      rw [cleanJsonSchema_idem x, cleanElemList_idem t]
      rfl

end

set_option maxRecDepth 100000 in
set_option maxHeartbeats 4000000 in
/-- **C5 counterexample.** The strict sanitizer is not idempotent even
modulo description fields: on `sStrictEx` the first run leaves a
property named `const` (manufactured by the `allOf` merge next to a
falsy property named `enum`), and the second run's const-to-enum pass
collapses it, changing the structure. -/
theorem c5_counterexample :
    eraseDesc (cleanJSONSchemaForAntigravity (cleanJSONSchemaForAntigravity sStrictEx)) ≠
      eraseDesc (cleanJSONSchemaForAntigravity sStrictEx) := by
  have h : cleanJSONSchemaForAntigravity sStrictEx = sStrictOnce := by decide
  rw [h]
  decide

set_option maxRecDepth 100000 in
set_option maxHeartbeats 4000000 in
/-- **C5** (amended).  The light sanitizer is exactly idempotent on every
input; the strict sanitizer is not idempotent up to description fields:
re-running it on its own output can change structure (a property named
`const` whose sibling property `enum` is falsy, as manufactured by the
`allOf` merge, is collapsed into an `enum` member by the second run). -/
theorem c5_sanitizer_idempotence :
    (∀ s : Json, cleanJsonSchema (cleanJsonSchema s) = cleanJsonSchema s) ∧
    eraseDesc (cleanJSONSchemaForAntigravity (cleanJSONSchemaForAntigravity sStrictEx)) ≠
      eraseDesc (cleanJSONSchemaForAntigravity sStrictEx) :=
  ⟨cleanJsonSchema_idem, by
    have h : cleanJSONSchemaForAntigravity sStrictEx = sStrictOnce := by decide
    rw [h]
    decide⟩
